import Mathlib

/-!
Verification of the announcement buffer (src/packetcrypt-blkmine/src/ann_buf.rs).

The buffer is embedded shallowly: the const generics ANNBUF_SZ and RANGES become the
lengths of the ann_data and ranges lists, machine integers become Nat, Rust panics
(assert failures, out-of-bounds indexing, usize subtraction underflow) become none in
Option-valued operations, and the external byte store (DataBuf.put_ann) is modelled as
the log of writes a call emits.
-/

namespace AnnBufModel

/-- Modelled from the spec: the metadata record AnnData (crate module types.rs is not
under src). Spec section 3: an unsigned 64-bit hash-derived sort key and the absolute
byte-store location of the raw bytes. Values are carried as Nat; no operation of the
buffer overflows them. -/
structure AnnData where
  hash_pfx : Nat
  mloc : Nat
deriving DecidableEq, Inhabited

/-- Modelled from the spec: one write consumed by the byte store, DataBuf.put_ann
(crate module databuf.rs is not under src). Spec section 6: a write takes an absolute
location, the raw payload bytes and the full hash, and always succeeds. -/
structure DbWrite where
  loc : Nat
  ann : List Nat
  hash : Nat
deriving DecidableEq, Inhabited

/-- The announcement buffer state (ann_buf.rs lines 11-29). The db handle is not stored:
byte-store writes are returned by push_anns as an explicit log. -/
structure AnnBuf where
  base_offset : Nat
  next_ann_index : Nat
  ann_data : List AnnData
  ranges : List Nat
  locked : Bool
deriving DecidableEq

/-- AnnBuf::new (ann_buf.rs lines 35-44): empty unlocked buffer, cursor 0, records and
ranges default-initialized. -/
def AnnBuf.new (SZ R base_offset : Nat) : AnnBuf :=
  { base_offset := base_offset
    next_ann_index := 0
    ann_data := List.replicate SZ default
    ranges := List.replicate R 0
    locked := false }

/-- The write loop of push_anns (ann_buf.rs lines 66-78): for each selected candidate
index ci at slot i, reads anns[ci] and hashes[ci] (unchecked indexing: out of bounds is
a panic, modelled as none), writes the metadata record at slot i, and emits the byte
store write put_ann (base_offset + i, ann, hash). -/
def pushLoop (base : Nat) (anns : List (List Nat)) (hashes : List Nat) :
    Nat → List Nat → List AnnData → Option (List AnnData × List DbWrite)
  | _, [], data => some (data, [])
  | i, ci :: rest, data =>
    match anns[ci]?, hashes[ci]? with
    | some a, some h =>
      if i < data.length then
        match pushLoop base anns hashes (i + 1) rest (data.set i ⟨h, base + i⟩) with
        | some (data', ws) => some (data', ⟨base + i, a, h⟩ :: ws)
        | none => none
      else none
    | _, _ => none

/-- AnnBuf::push_anns (ann_buf.rs lines 48-81). Fails (assert) if locked. The atomic
fetch_add claims the span starting at the current cursor; a claim at or past capacity
stores ANNBUF_SZ and returns 0; a claim overrunning capacity truncates the selection to
the remaining space and stores ANNBUF_SZ. Returns the inserted count, the new state
and the emitted byte-store writes. -/
def AnnBuf.push_anns (buf : AnnBuf) (anns : List (List Nat)) (indexes : List Nat)
    (hashes : List Nat) : Option (Nat × AnnBuf × List DbWrite) :=
  if buf.locked then none
  else
    let SZ := buf.ann_data.length
    let ann_index := buf.next_ann_index
    if ann_index ≥ SZ then
      some (0, { buf with next_ann_index := SZ }, [])
    else
      let idxs := if ann_index + indexes.length > SZ
        then indexes.take (SZ - ann_index) else indexes
      let next' := if ann_index + indexes.length > SZ
        then SZ else ann_index + indexes.length
      match pushLoop buf.base_offset anns hashes ann_index idxs buf.ann_data with
      | some (data', ws) =>
        some (idxs.length, { buf with next_ann_index := next', ann_data := data' }, ws)
      | none => none

/-- The boundary-recording scan of lock (ann_buf.rs lines 93-102): walks the sorted
records, and whenever the bucket id hash_pfx % RANGES changes, records the current
index in ranges[r] and increments r. The write ranges[r] = i is bounds checked: r
outside the array is a panic, modelled as none. Returns the updated ranges and the
final r. -/
def lockScan (R : Nat) : List AnnData → Nat → Nat → Nat → List Nat →
    Option (List Nat × Nat)
  | [], _, _, r, rs => some (rs, r)
  | ad :: rest, i, pfx, r, rs =>
    let this_pfx := ad.hash_pfx % R
    if this_pfx ≠ pfx then
      if r < rs.length then lockScan R rest (i + 1) this_pfx (r + 1) (rs.set r i)
      else none
    else lockScan R rest (i + 1) pfx r rs

/-- The sort key comparison of lock: par_sort_unstable_by_key sorts by hash_pfx
(ann_buf.rs line 91). -/
def annLe (a b : AnnData) : Bool := a.hash_pfx ≤ b.hash_pfx

/-- Ordered insert by annLe, the building block of the model of the sort. -/
def insertAnn (a : AnnData) : List AnnData → List AnnData
  | [] => [a]
  | b :: l => if annLe a b then a :: b :: l else b :: insertAnn a l

/-- Model of par_sort_unstable_by_key (ann_buf.rs line 91): the source sorts the filled
records by hash_pfx with an unstable sort, whose contract is a permutation of the input
that is non-decreasing in the key, with the relative order of equal keys unspecified.
Insertion sort realizes that contract and computes by structural recursion. -/
def sortAnns : List AnnData → List AnnData
  | [] => []
  | a :: l => insertAnn a (sortAnns l)

/-- AnnBuf::lock (ann_buf.rs lines 86-105). Fails (assert) if already locked. Sorts the
filled records ann_data[..last] by hash_pfx, scans them recording bucket boundaries,
writes the final boundary ranges[r] = last (bounds checked), and sets locked. The reads
that panic in Rust are modelled as none: hash_pfx % RANGES with RANGES = 0,
ann_data[0] with ANNBUF_SZ = 0, the slice ann_data[..last] with last past the array,
and any out-of-bounds ranges write. -/
def AnnBuf.lock (buf : AnnBuf) : Option AnnBuf :=
  if buf.locked then none
  else
    let R := buf.ranges.length
    if R = 0 then none
    else
      let last := buf.next_ann_index
      if last > buf.ann_data.length then none
      else
        let sorted := sortAnns (buf.ann_data.take last)
        let data' := sorted ++ buf.ann_data.drop last
        match data'[0]? with
        | none => none
        | some a0 =>
          match lockScan R sorted 0 (a0.hash_pfx % R) 0 buf.ranges with
          | some (rs, r) =>
            if r < rs.length then
              some { buf with ann_data := data', ranges := rs.set r last, locked := true }
            else none
          | none => none

/-- AnnBuf::reset (ann_buf.rs lines 108-111): zeroes the cursor and clears the locked
flag. The record array and the ranges array are left as they are. -/
def AnnBuf.reset (buf : AnnBuf) : AnnBuf :=
  { buf with next_ann_index := 0, locked := false }

/-- AnnBuf::range (ann_buf.rs lines 113-119): the half-open span of a bucket, reading
ranges[range-1] and ranges[range] (bucket 0 starts at 0). Out-of-bounds reads of the
ranges array are panics, modelled as none. -/
def AnnBuf.range (buf : AnnBuf) (range : Nat) : Option (Nat × Nat) :=
  if range = 0 then
    match buf.ranges[0]? with
    | some e => some (0, e)
    | none => none
  else
    match buf.ranges[range - 1]?, buf.ranges[range]? with
    | some b, some e => some (b, e)
    | _, _ => none

/-- AnnBuf::range_count (ann_buf.rs lines 121-124): end - begin on usize values; the
subtraction underflows (panics) when begin exceeds end, modelled as none. There is no
locked check in the source. -/
def AnnBuf.range_count (buf : AnnBuf) (range : Nat) : Option Nat :=
  match buf.range range with
  | some (b, e) => if b ≤ e then some (e - b) else none
  | none => none

/-- AnnBuf::iter (ann_buf.rs lines 126-131). Fails (assert) if not locked. Yields the
records at positions begin..end; indexing past the record array while consuming the
iterator is a panic, modelled as none. -/
def AnnBuf.iter (buf : AnnBuf) (range : Nat) : Option (List AnnData) :=
  if ¬ buf.locked then none
  else
    match buf.range range with
    | some (b, e) =>
      if b < e ∧ buf.ann_data.length < e then none
      else some ((List.range' b (e - b)).map (fun i => buf.ann_data.getD i default))
    | none => none

/-- AnnBuf::read_ready_anns (ann_buf.rs lines 135-142). Fails (assert) if not locked.
Copies the filled records ann_data[0..last] into the destination positions 0..last,
leaving the rest of the destination unchanged; slicing past the record array or writing
past the destination is a panic, modelled as none. -/
def AnnBuf.read_ready_anns (buf : AnnBuf) (out : List AnnData) : Option (List AnnData) :=
  if ¬ buf.locked then none
  else
    let last := buf.next_ann_index
    if last ≤ buf.ann_data.length ∧ last ≤ out.length then
      some (buf.ann_data.take last ++ out.drop last)
    else none

/-- One push_anns call: its inputs (ann_buf.rs line 48). -/
structure PushCall where
  anns : List (List Nat)
  indexes : List Nat
  hashes : List Nat

/-- A sequence of push_anns calls applied in order, collecting the returned counts and
the byte-store writes; any panicking call fails the whole run. -/
def pushSeq (buf : AnnBuf) : List PushCall → Option (AnnBuf × List Nat × List DbWrite)
  | [] => some (buf, [], [])
  | c :: cs =>
    match buf.push_anns c.anns c.indexes c.hashes with
    | some (n, buf', ws) =>
      match pushSeq buf' cs with
      | some (buf'', ns, ws') => some (buf'', n :: ns, ws ++ ws')
      | none => none
    | none => none

/-- The hash-prefix multiset selected by one call: hashes[ci] for each selected ci. -/
def selectedPfxs (c : PushCall) : List Nat :=
  c.indexes.map (fun ci => c.hashes.getD ci 0)

/-- The hash-prefix multiset selected by a sequence of calls, in call order. -/
def callsPfxs (cs : List PushCall) : List Nat := cs.flatMap selectedPfxs

/-- Total number of selected entries across a sequence of calls. -/
def totalSelected (cs : List PushCall) : Nat :=
  (cs.map (fun c => c.indexes.length)).sum

/-- Every selected index of the call is in bounds of both the candidate array and the
hash array. -/
def ValidCall (c : PushCall) : Prop :=
  ∀ ci ∈ c.indexes, ci < c.anns.length ∧ ci < c.hashes.length

instance decValidCall (c : PushCall) : Decidable (ValidCall c) :=
  inferInstanceAs
    (Decidable (∀ ci ∈ c.indexes, ci < c.anns.length ∧ ci < c.hashes.length))

/-- The bucket id of a record (ann_buf.rs lines 93, 96). -/
def bucketOf (R : Nat) (ad : AnnData) : Nat := ad.hash_pfx % R

/-- Positions (relative to start index i) at which the bucket id changes while scanning
a record list, starting from current bucket pfx: exactly the positions the lock scan
records as boundaries. -/
def changeIdxs (R : Nat) : List AnnData → Nat → Nat → List Nat
  | [], _, _ => []
  | ad :: rest, i, pfx =>
    let p := ad.hash_pfx % R
    if p ≠ pfx then i :: changeIdxs R rest (i + 1) p
    else changeIdxs R rest (i + 1) pfx

/-- Number of bucket-id changes the lock scan encounters on a sorted record list. -/
def bucketChanges (R : Nat) (l : List AnnData) : Nat :=
  (changeIdxs R l 0 (bucketOf R (l.headD default))).length

/-- Overwrite consecutive entries of a list starting at position r. -/
def setFrom : List Nat → Nat → List Nat → List Nat
  | rs, _, [] => rs
  | rs, r, c :: cs => setFrom (rs.set r c) (r + 1) cs

/-- Model of the atomic cursor operations of push_anns under concurrency: reserve is
the fetch_add claiming a span (ann_buf.rs line 52-54), clamp is the store of ANNBUF_SZ
on detected overflow (lines 56, 63). An arbitrary event list models an arbitrary
interleaving of threads, since the cursor is the only synchronization. -/
inductive CursorEvent where
  | reserve (len : Nat)
  | clamp
deriving DecidableEq

/-- The span of record-array slots each reserve event writes (ann_buf.rs lines 67-78):
a reserve returning cursor c with length len writes slots c ≤ i < min (c + len) SZ,
and nothing when c ≥ SZ. -/
def reservedSpans (SZ : Nat) : Nat → List CursorEvent → List (Nat × Nat)
  | _, [] => []
  | c, CursorEvent.reserve len :: evs =>
    (c, min (c + len) SZ) :: reservedSpans SZ (c + len) evs
  | _, CursorEvent.clamp :: evs => reservedSpans SZ SZ evs

/-- The records the push loop writes for selection cis starting at slot i. -/
def recsOf (base : Nat) (hashes : List Nat) : Nat → List Nat → List AnnData
  | _, [] => []
  | i, ci :: rest => ⟨hashes.getD ci 0, base + i⟩ :: recsOf base hashes (i + 1) rest

/-- The byte-store writes the push loop emits for selection cis starting at slot i. -/
def wsOf (base : Nat) (anns : List (List Nat)) (hashes : List Nat) :
    Nat → List Nat → List DbWrite
  | _, [] => []
  | i, ci :: rest =>
    ⟨base + i, anns.getD ci [], hashes.getD ci 0⟩ :: wsOf base anns hashes (i + 1) rest

/-- Simulation relation for the reset claim: two buffers agree on everything an
open-phase operation can observe (base, cursor, locked flag, array lengths, and the
filled record positions below the cursor). -/
def Rel (s1 s2 : AnnBuf) : Prop :=
  s1.base_offset = s2.base_offset ∧
  s1.next_ann_index = s2.next_ann_index ∧
  s1.ann_data.length = s2.ann_data.length ∧
  s1.ann_data.take s1.next_ann_index = s2.ann_data.take s2.next_ann_index ∧
  s1.ranges.length = s2.ranges.length ∧
  s1.locked = s2.locked

theorem take_set_of_le {α} (l : List α) {i m : Nat} (a : α) (h : m ≤ i) :
    (l.set i a).take m = l.take m := by
  apply List.ext_getElem?
  intro n
  rw [List.getElem?_take, List.getElem?_take]
  split
  · next hn =>
    rw [List.getElem?_set]
    have hne : i ≠ n := by omega
    simp [hne]
  · rfl

theorem drop_set_of_lt {α} (l : List α) {i m : Nat} (a : α) (h : i < m) :
    (l.set i a).drop m = l.drop m := by
  apply List.ext_getElem?
  intro n
  rw [List.getElem?_drop, List.getElem?_drop, List.getElem?_set]
  have hne : i ≠ m + n := by omega
  simp [hne]

theorem range'_map_getD {α} (d : α) : ∀ (k b : Nat) (l : List α), b + k ≤ l.length →
    (List.range' b k).map (fun i => l.getD i d) = (l.drop b).take k
  | 0, b, l, _ => by simp
  | k + 1, b, l, h => by
    have hb : b < l.length := by omega
    rw [List.range'_succ, List.map_cons, range'_map_getD d k (b + 1) l (by omega),
      List.drop_eq_getElem_cons hb, List.take_succ_cons, List.getD_eq_getElem l d hb]

theorem setFrom_getElem? : ∀ (cs rs : List Nat) (r m : Nat),
    (setFrom rs r cs)[m]? =
      if r ≤ m ∧ m < r + cs.length ∧ m < rs.length then cs[m - r]? else rs[m]?
  | [], rs, r, m => by
    have hc : ¬(r ≤ m ∧ m < r + ([] : List Nat).length ∧ m < rs.length) := by
      simp; omega
    rw [if_neg hc]; rfl
  | c :: cs, rs, r, m => by
    rw [setFrom, setFrom_getElem? cs (rs.set r c) (r + 1) m, List.length_set]
    by_cases h1 : r + 1 ≤ m ∧ m < r + 1 + cs.length ∧ m < rs.length
    · rw [if_pos h1, if_pos (by simp; omega)]
      have : m - r = (m - (r + 1)) + 1 := by omega
      rw [this, List.getElem?_cons_succ]
    · rw [if_neg h1, List.getElem?_set]
      by_cases h2 : r = m
      · subst h2
        by_cases h3 : r < rs.length
        · rw [if_pos rfl, if_pos h3, if_pos (by simp; omega)]
          simp
        · rw [if_pos rfl, if_neg h3, if_neg (by simp; omega)]
          exact (List.getElem?_eq_none (by omega)).symm
      · rw [if_neg h2]
        have hc : ¬(r ≤ m ∧ m < r + (c :: cs).length ∧ m < rs.length) := by
          simp only [List.length_cons]
          intro ⟨a1, a2, a3⟩
          exact h1 ⟨by omega, by omega, a3⟩
        rw [if_neg hc]

theorem recsOf_length (base : Nat) (hashes : List Nat) :
    ∀ (i : Nat) (cis : List Nat), (recsOf base hashes i cis).length = cis.length
  | _, [] => rfl
  | i, _ :: rest => by
    rw [recsOf, List.length_cons, List.length_cons, recsOf_length base hashes (i + 1) rest]

theorem wsOf_length (base : Nat) (anns : List (List Nat)) (hashes : List Nat) :
    ∀ (i : Nat) (cis : List Nat), (wsOf base anns hashes i cis).length = cis.length
  | _, [] => rfl
  | i, _ :: rest => by
    rw [wsOf, List.length_cons, List.length_cons, wsOf_length base anns hashes (i + 1) rest]

theorem recsOf_map_pfx (base : Nat) (hashes : List Nat) :
    ∀ (i : Nat) (cis : List Nat),
      (recsOf base hashes i cis).map AnnData.hash_pfx = cis.map (hashes.getD · 0)
  | _, [] => rfl
  | i, ci :: rest => by
    rw [recsOf, List.map_cons, List.map_cons, recsOf_map_pfx base hashes (i + 1) rest]

theorem recsOf_getElem? (base : Nat) (hashes : List Nat) :
    ∀ (i : Nat) (cis : List Nat) (j : Nat), j < cis.length →
      (recsOf base hashes i cis)[j]? = some ⟨hashes.getD (cis.getD j 0) 0, base + i + j⟩
  | _, [], j, hj => by simp at hj
  | i, ci :: rest, 0, _ => by simp [recsOf]
  | i, ci :: rest, j + 1, hj => by
    rw [recsOf]
    have := recsOf_getElem? base hashes (i + 1) rest j (by simpa using hj)
    simpa [Nat.add_assoc, Nat.add_comm 1 j] using this

theorem wsOf_getElem? (base : Nat) (anns : List (List Nat)) (hashes : List Nat) :
    ∀ (i : Nat) (cis : List Nat) (j : Nat), j < cis.length →
      (wsOf base anns hashes i cis)[j]? =
        some ⟨base + i + j, anns.getD (cis.getD j 0) [], hashes.getD (cis.getD j 0) 0⟩
  | _, [], j, hj => by simp at hj
  | i, ci :: rest, 0, _ => by simp [wsOf]
  | i, ci :: rest, j + 1, hj => by
    rw [wsOf]
    have := wsOf_getElem? base anns hashes (i + 1) rest j (by simpa using hj)
    simpa [Nat.add_assoc, Nat.add_comm 1 j] using this

theorem pushLoop_eq (base : Nat) (anns : List (List Nat)) (hashes : List Nat) :
    ∀ (cis : List Nat) (i : Nat) (data : List AnnData),
    (∀ ci ∈ cis, ci < anns.length ∧ ci < hashes.length) →
    i + cis.length ≤ data.length →
    pushLoop base anns hashes i cis data =
      some (data.take i ++ recsOf base hashes i cis ++ data.drop (i + cis.length),
            wsOf base anns hashes i cis)
  | [], i, data, _, _ => by
    rw [pushLoop, recsOf, wsOf]
    simp
  | ci :: rest, i, data, hv, hfit => by
    have hci := hv ci (by simp)
    have hi : i < data.length := by
      have := hfit; simp only [List.length_cons] at this; omega
    have ha : anns[ci]? = some anns[ci] := List.getElem?_eq_getElem hci.1
    have hh : hashes[ci]? = some hashes[ci] := List.getElem?_eq_getElem hci.2
    rw [pushLoop, ha, hh]
    simp only [hi, if_true]
    have hrec := pushLoop_eq base anns hashes rest (i + 1)
      (data.set i ⟨hashes[ci], base + i⟩)
      (fun c hc => hv c (by simp [hc]))
      (by rw [List.length_set]; simp only [List.length_cons] at hfit; omega)
    rw [hrec]
    have hgd : hashes.getD ci 0 = hashes[ci] := List.getD_eq_getElem hashes 0 hci.2
    have hgda : anns.getD ci [] = anns[ci] := List.getD_eq_getElem anns [] hci.1
    have ht : (data.set i ⟨hashes[ci], base + i⟩).take (i + 1)
        = data.take i ++ [⟨hashes[ci], base + i⟩] := by
      rw [List.take_succ, take_set_of_le data _ (Nat.le_refl i), List.getElem?_set]
      simp [hi]
    have hd : (data.set i ⟨hashes[ci], base + i⟩).drop (i + 1 + rest.length)
        = data.drop (i + (ci :: rest).length) := by
      rw [drop_set_of_lt data _ (by omega)]
      simp only [List.length_cons]
      congr 1
      omega
    rw [ht, hd, recsOf, wsOf, hgd, hgda]
    simp

theorem pushLoop_some (base : Nat) (anns : List (List Nat)) (hashes : List Nat) :
    ∀ (cis : List Nat) (i : Nat) (data : List AnnData) (out : List AnnData × List DbWrite),
    pushLoop base anns hashes i cis data = some out →
    (∀ ci ∈ cis, ci < anns.length ∧ ci < hashes.length) ∧
      (cis = [] ∨ i + cis.length ≤ data.length)
  | [], _, _, _, _ => ⟨by simp, Or.inl rfl⟩
  | ci :: rest, i, data, out, h => by
    rw [pushLoop] at h
    cases ha : anns[ci]? with
    | none => rw [ha] at h; simp at h
    | some a =>
      cases hh : hashes[ci]? with
      | none => rw [ha, hh] at h; simp at h
      | some hsh =>
        rw [ha, hh] at h
        simp only at h
        split at h
        · next hi =>
          cases hr : pushLoop base anns hashes (i + 1) rest
              (data.set i ⟨hsh, base + i⟩) with
          | none => rw [hr] at h; simp at h
          | some dw =>
            have ih := pushLoop_some base anns hashes rest (i + 1) _ dw hr
            obtain ⟨hlt1, _⟩ := List.getElem?_eq_some_iff.mp ha
            obtain ⟨hlt2, _⟩ := List.getElem?_eq_some_iff.mp hh
            refine ⟨?_, Or.inr ?_⟩
            · intro c hc
              rcases List.mem_cons.mp hc with hc | hc
              · subst hc; exact ⟨hlt1, hlt2⟩
              · exact ih.1 c hc
            · rcases ih.2 with he | hle
              · subst he; simpa using hi
              · rw [List.length_set] at hle
                simp only [List.length_cons]
                omega
        · simp at h

/-- A push whose selection fits in the remaining capacity: full success formula. -/
theorem push_ok (buf : AnnBuf) (anns : List (List Nat)) (indexes hashes : List Nat)
    (hnl : buf.locked = false)
    (hv : ∀ ci ∈ indexes, ci < anns.length ∧ ci < hashes.length)
    (hfit : buf.next_ann_index + indexes.length ≤ buf.ann_data.length) :
    buf.push_anns anns indexes hashes =
      some (indexes.length,
        { buf with next_ann_index := buf.next_ann_index + indexes.length,
                   ann_data := buf.ann_data.take buf.next_ann_index
                     ++ recsOf buf.base_offset hashes buf.next_ann_index indexes
                     ++ buf.ann_data.drop (buf.next_ann_index + indexes.length) },
        wsOf buf.base_offset anns hashes buf.next_ann_index indexes) := by
  rw [AnnBuf.push_anns]
  rw [if_neg (by simp [hnl])]
  simp only []
  by_cases hge : buf.next_ann_index ≥ buf.ann_data.length
  · have hlen0 : indexes.length = 0 := by omega
    have he : indexes = [] := List.length_eq_zero.mp hlen0
    subst he
    rw [if_pos hge]
    have hnx : buf.next_ann_index = buf.ann_data.length := by omega
    simp only [List.length_nil, Nat.add_zero, recsOf, wsOf, List.append_nil,
      List.take_append_drop, hnx]
  · rw [if_neg hge]
    have hngt : ¬(buf.next_ann_index + indexes.length > buf.ann_data.length) := by omega
    rw [if_neg hngt, if_neg hngt]
    rw [pushLoop_eq buf.base_offset anns hashes indexes buf.next_ann_index buf.ann_data
      hv hfit]

/-- Inversion of a successful push: either the buffer was already at (or past) capacity
and nothing was written, or the claim started below capacity and the (possibly
truncated) selection was written by the push loop. -/
theorem push_inv (buf : AnnBuf) (anns : List (List Nat)) (indexes hashes : List Nat)
    (ret : Nat) (buf' : AnnBuf) (ws : List DbWrite)
    (h : buf.push_anns anns indexes hashes = some (ret, buf', ws)) :
    buf.locked = false ∧
    ((buf.ann_data.length ≤ buf.next_ann_index ∧ ret = 0 ∧ ws = [] ∧
       buf' = { buf with next_ann_index := buf.ann_data.length }) ∨
     (buf.next_ann_index < buf.ann_data.length ∧
      buf.next_ann_index + (if buf.ann_data.length < buf.next_ann_index + indexes.length
          then indexes.take (buf.ann_data.length - buf.next_ann_index)
          else indexes).length ≤ buf.ann_data.length ∧
      ret = (if buf.ann_data.length < buf.next_ann_index + indexes.length
          then indexes.take (buf.ann_data.length - buf.next_ann_index)
          else indexes).length ∧
      (∀ ci ∈ (if buf.ann_data.length < buf.next_ann_index + indexes.length
          then indexes.take (buf.ann_data.length - buf.next_ann_index)
          else indexes), ci < anns.length ∧ ci < hashes.length) ∧
      ws = wsOf buf.base_offset anns hashes buf.next_ann_index
        (if buf.ann_data.length < buf.next_ann_index + indexes.length
          then indexes.take (buf.ann_data.length - buf.next_ann_index)
          else indexes) ∧
      buf' = { buf with
        next_ann_index := if buf.ann_data.length < buf.next_ann_index + indexes.length
          then buf.ann_data.length else buf.next_ann_index + indexes.length,
        ann_data := buf.ann_data.take buf.next_ann_index
          ++ recsOf buf.base_offset hashes buf.next_ann_index
            (if buf.ann_data.length < buf.next_ann_index + indexes.length
              then indexes.take (buf.ann_data.length - buf.next_ann_index)
              else indexes)
          ++ buf.ann_data.drop (buf.next_ann_index +
            (if buf.ann_data.length < buf.next_ann_index + indexes.length
              then indexes.take (buf.ann_data.length - buf.next_ann_index)
              else indexes).length) })) := by
  rw [AnnBuf.push_anns] at h
  by_cases hl : buf.locked
  · rw [if_pos (by simp [hl])] at h
    simp at h
  · rw [if_neg (by simp [hl])] at h
    simp only [] at h
    refine ⟨by simpa using hl, ?_⟩
    by_cases hge : buf.next_ann_index ≥ buf.ann_data.length
    · rw [if_pos hge] at h
      simp only [Option.some.injEq, Prod.mk.injEq] at h
      left
      exact ⟨hge, h.1.symm, h.2.2.symm, h.2.1.symm⟩
    · rw [if_neg hge] at h
      right
      have hlt : buf.next_ann_index < buf.ann_data.length := by omega
      refine ⟨hlt, ?_⟩
      set idxs := (if buf.ann_data.length < buf.next_ann_index + indexes.length
          then indexes.take (buf.ann_data.length - buf.next_ann_index)
          else indexes) with hidxs
      cases hr : pushLoop buf.base_offset anns hashes buf.next_ann_index idxs
          buf.ann_data with
      | none => rw [hr] at h; simp at h
      | some dw =>
        obtain ⟨d1, w1⟩ := dw
        rw [hr] at h
        simp only [Option.some.injEq, Prod.mk.injEq] at h
        have hval := pushLoop_some buf.base_offset anns hashes idxs
          buf.next_ann_index buf.ann_data (d1, w1) hr
        have hfit : buf.next_ann_index + idxs.length ≤ buf.ann_data.length := by
          rw [hidxs]
          by_cases hc : buf.ann_data.length < buf.next_ann_index + indexes.length
          · rw [if_pos hc, List.length_take]
            omega
          · rw [if_neg hc]
            omega
        have heq := pushLoop_eq buf.base_offset anns hashes idxs buf.next_ann_index
          buf.ann_data hval.1 hfit
        rw [heq] at hr
        injection Option.some.inj hr with hd hw
        refine ⟨hfit, h.1.symm, hval.1, ?_, ?_⟩
        · rw [← h.2.2, ← hw]
        · rw [← h.2.1]
          congr 1
          rw [← hd]

theorem pushLoop_isSome_iff (base : Nat) (anns : List (List Nat)) (hashes : List Nat)
    (cis : List Nat) (i : Nat) (data : List AnnData) :
    (pushLoop base anns hashes i cis data).isSome ↔
      (∀ ci ∈ cis, ci < anns.length ∧ ci < hashes.length) ∧
        (cis = [] ∨ i + cis.length ≤ data.length) := by
  constructor
  · intro h
    obtain ⟨out, hout⟩ := Option.isSome_iff_exists.mp h
    exact pushLoop_some base anns hashes cis i data out hout
  · rintro ⟨hv, he | hfit⟩
    · subst he
      rw [pushLoop]
      rfl
    · rw [pushLoop_eq base anns hashes cis i data hv hfit]
      rfl

theorem push_isSome_iff (buf : AnnBuf) (anns : List (List Nat))
    (indexes hashes : List Nat) :
    (buf.push_anns anns indexes hashes).isSome ↔
      buf.locked = false ∧
      (buf.ann_data.length ≤ buf.next_ann_index ∨
        (∀ ci ∈ (if buf.ann_data.length < buf.next_ann_index + indexes.length
            then indexes.take (buf.ann_data.length - buf.next_ann_index)
            else indexes), ci < anns.length ∧ ci < hashes.length)) := by
  rw [AnnBuf.push_anns]
  by_cases hl : buf.locked
  · rw [if_pos (by simp [hl])]
    simp [hl]
  · rw [if_neg (by simp [hl])]
    simp only []
    by_cases hge : buf.next_ann_index ≥ buf.ann_data.length
    · rw [if_pos hge]
      simp only [Option.isSome_some, true_iff]
      exact ⟨by simpa using hl, Or.inl hge⟩
    · rw [if_neg hge]
      set idxs := (if buf.ann_data.length < buf.next_ann_index + indexes.length
          then indexes.take (buf.ann_data.length - buf.next_ann_index)
          else indexes) with hidxs
      have hfit : buf.next_ann_index + idxs.length ≤ buf.ann_data.length := by
        rw [hidxs]
        by_cases hc : buf.ann_data.length < buf.next_ann_index + indexes.length
        · rw [if_pos hc, List.length_take]
          omega
        · rw [if_neg hc]
          omega
      have hiff := pushLoop_isSome_iff buf.base_offset anns hashes idxs
        buf.next_ann_index buf.ann_data
      constructor
      · intro h
        have hls : (pushLoop buf.base_offset anns hashes buf.next_ann_index idxs
            buf.ann_data).isSome := by
          cases hr : pushLoop buf.base_offset anns hashes buf.next_ann_index idxs
              buf.ann_data with
          | none => rw [hr] at h; simp at h
          | some dw => rfl
        exact ⟨by simpa using hl, Or.inr (hiff.mp hls).1⟩
      · rintro ⟨-, hca | hv⟩
        · omega
        · have hls := hiff.mpr ⟨hv, Or.inr hfit⟩
          obtain ⟨⟨d1, w1⟩, hr⟩ := Option.isSome_iff_exists.mp hls
          rw [hr]
          rfl

theorem push_fields (buf : AnnBuf) (anns : List (List Nat)) (indexes hashes : List Nat)
    (ret : Nat) (buf' : AnnBuf) (ws : List DbWrite)
    (h : buf.push_anns anns indexes hashes = some (ret, buf', ws)) :
    buf.locked = false ∧ buf'.locked = false ∧
    buf'.base_offset = buf.base_offset ∧ buf'.ranges = buf.ranges ∧
    buf'.ann_data.length = buf.ann_data.length := by
  obtain ⟨hnl, hc⟩ := push_inv buf anns indexes hashes ret buf' ws h
  rcases hc with ⟨hge, hret, hws, hbuf⟩ | ⟨hlt, hfit, hret, hval, hws, hbuf⟩
  · rw [hbuf]
    exact ⟨hnl, hnl, rfl, rfl, rfl⟩
  · rw [hbuf]
    refine ⟨hnl, hnl, rfl, rfl, ?_⟩
    simp only [List.length_append, List.length_take, List.length_drop, recsOf_length]
    omega

theorem push_counts (buf : AnnBuf) (anns : List (List Nat)) (indexes hashes : List Nat)
    (ret : Nat) (buf' : AnnBuf) (ws : List DbWrite)
    (h : buf.push_anns anns indexes hashes = some (ret, buf', ws))
    (hle : buf.next_ann_index ≤ buf.ann_data.length) :
    ret = min indexes.length (buf.ann_data.length - buf.next_ann_index) ∧
    buf'.next_ann_index = min (buf.next_ann_index + indexes.length)
      buf.ann_data.length := by
  obtain ⟨hnl, hc⟩ := push_inv buf anns indexes hashes ret buf' ws h
  rcases hc with ⟨hge, hret, hws, hbuf⟩ | ⟨hlt, hfit, hret, hval, hws, hbuf⟩
  · rw [hbuf]
    constructor
    · omega
    · simp only []
      omega
  · rw [hbuf]
    by_cases hcond : buf.ann_data.length < buf.next_ann_index + indexes.length
    · rw [if_pos hcond] at hret
      rw [List.length_take] at hret
      refine ⟨by omega, ?_⟩
      simp only [if_pos hcond]
      omega
    · rw [if_neg hcond] at hret
      refine ⟨by omega, ?_⟩
      simp only [if_neg hcond]
      omega

theorem totalSelected_nil : totalSelected [] = 0 := rfl

theorem totalSelected_cons (c : PushCall) (cs : List PushCall) :
    totalSelected (c :: cs) = c.indexes.length + totalSelected cs := by
  rw [totalSelected, totalSelected, List.map_cons, List.sum_cons]

theorem callsPfxs_cons (c : PushCall) (cs : List PushCall) :
    callsPfxs (c :: cs) = selectedPfxs c ++ callsPfxs cs := by
  rw [callsPfxs, callsPfxs, List.flatMap_cons]

theorem pushSeq_ok : ∀ (cs : List PushCall) (buf : AnnBuf),
    buf.locked = false →
    (∀ c ∈ cs, ValidCall c) →
    buf.next_ann_index + totalSelected cs ≤ buf.ann_data.length →
    ∃ buf' ws, pushSeq buf cs = some (buf', cs.map (fun c => c.indexes.length), ws) ∧
      buf'.locked = false ∧
      buf'.base_offset = buf.base_offset ∧
      buf'.ranges = buf.ranges ∧
      buf'.ann_data.length = buf.ann_data.length ∧
      buf'.next_ann_index = buf.next_ann_index + totalSelected cs ∧
      (buf'.ann_data.take buf'.next_ann_index).map AnnData.hash_pfx
        = (buf.ann_data.take buf.next_ann_index).map AnnData.hash_pfx ++ callsPfxs cs
  | [], buf, hnl, _, _ => by
    refine ⟨buf, [], by rw [pushSeq]; rfl, hnl, rfl, rfl, rfl, ?_, ?_⟩
    · rw [totalSelected_nil]
      omega
    · rw [callsPfxs]
      simp
  | c :: cs, buf, hnl, hv, hfit => by
    have hvc : ValidCall c := hv c (by simp)
    have htot := totalSelected_cons c cs
    have hfitc : buf.next_ann_index + c.indexes.length ≤ buf.ann_data.length := by
      omega
    set buf1 : AnnBuf := { buf with
      next_ann_index := buf.next_ann_index + c.indexes.length,
      ann_data := buf.ann_data.take buf.next_ann_index
        ++ recsOf buf.base_offset c.hashes buf.next_ann_index c.indexes
        ++ buf.ann_data.drop (buf.next_ann_index + c.indexes.length) } with hbuf1
    have hp : buf.push_anns c.anns c.indexes c.hashes =
        some (c.indexes.length, buf1,
          wsOf buf.base_offset c.anns c.hashes buf.next_ann_index c.indexes) :=
      push_ok buf c.anns c.indexes c.hashes hnl hvc hfitc
    have hlen1 : buf1.ann_data.length = buf.ann_data.length := by
      rw [hbuf1]
      simp only [List.length_append, List.length_take, List.length_drop, recsOf_length]
      omega
    have htake1 : buf1.ann_data.take buf1.next_ann_index
        = buf.ann_data.take buf.next_ann_index
          ++ recsOf buf.base_offset c.hashes buf.next_ann_index c.indexes := by
      rw [hbuf1]
      simp only []
      apply List.take_left'
      rw [List.length_append, List.length_take, recsOf_length]
      omega
    obtain ⟨buf2, ws2, hseq2, hl2, hbase2, hr2, hlen2, hnext2, hmap2⟩ :=
      pushSeq_ok cs buf1 (by rw [hbuf1]; exact hnl) (fun x hx => hv x (by simp [hx]))
        (by rw [hlen1, hbuf1]; simp only []; omega)
    refine ⟨buf2,
      wsOf buf.base_offset c.anns c.hashes buf.next_ann_index c.indexes ++ ws2,
      ?_, hl2, by rw [hbase2, hbuf1], by rw [hr2, hbuf1], by rw [hlen2, hlen1],
      ?_, ?_⟩
    · simp only [pushSeq, hp, hseq2]
      rfl
    · rw [hnext2, hbuf1]
      simp only []
      omega
    · rw [hmap2, htake1, List.map_append, recsOf_map_pfx, callsPfxs_cons]
      rw [selectedPfxs, List.append_assoc]

theorem pushSeq_counts : ∀ (cs : List PushCall) (buf buf' : AnnBuf) (ns : List Nat)
    (ws : List DbWrite),
    pushSeq buf cs = some (buf', ns, ws) →
    buf.next_ann_index ≤ buf.ann_data.length →
    buf'.ann_data.length = buf.ann_data.length ∧
    buf'.next_ann_index = min (buf.next_ann_index + totalSelected cs)
      buf.ann_data.length ∧
    ns.sum + buf.next_ann_index = buf'.next_ann_index ∧
    (∀ j, buf.ann_data.length ≤ buf.next_ann_index + totalSelected (cs.take j) →
      j < ns.length → ns[j]? = some 0)
  | [], buf, buf', ns, ws, h, hle => by
    rw [pushSeq] at h
    simp only [Option.some.injEq, Prod.mk.injEq] at h
    obtain ⟨h1, h2, h3⟩ := h
    subst h1
    rw [← h2]
    refine ⟨rfl, by rw [totalSelected_nil]; omega, by simp, ?_⟩
    intro j _ hj
    simp at hj
  | c :: cs, buf, buf', ns, ws, h, hle => by
    rw [pushSeq] at h
    cases hp : buf.push_anns c.anns c.indexes c.hashes with
    | none => rw [hp] at h; simp at h
    | some x =>
      obtain ⟨r1, buf1, w1⟩ := x
      rw [hp] at h
      simp only [] at h
      cases hs : pushSeq buf1 cs with
      | none => rw [hs] at h; simp at h
      | some y =>
        obtain ⟨buf2, ns2, ws2⟩ := y
        rw [hs] at h
        simp only [Option.some.injEq, Prod.mk.injEq] at h
        obtain ⟨hb, hn, hw⟩ := h
        subst hb
        have hcounts := push_counts buf c.anns c.indexes c.hashes r1 buf1 w1 hp hle
        have hflds := push_fields buf c.anns c.indexes c.hashes r1 buf1 w1 hp
        have hlen1 : buf1.ann_data.length = buf.ann_data.length := hflds.2.2.2.2
        have hle1 : buf1.next_ann_index ≤ buf1.ann_data.length := by
          rw [hlen1]
          omega
        have ih := pushSeq_counts cs buf1 buf2 ns2 ws2 hs hle1
        have htot := totalSelected_cons c cs
        rw [← hn]
        refine ⟨by rw [ih.1, hlen1], ?_, ?_, ?_⟩
        · rw [ih.2.1, hlen1]
          omega
        · rw [List.sum_cons]
          have := ih.2.2.1
          omega
        · intro j hcond hjlt
          cases j with
          | zero =>
            rw [List.take_zero, totalSelected_nil] at hcond
            have hr1 : r1 = 0 := by omega
            rw [hr1, List.getElem?_cons_zero]
          | succ j =>
            rw [List.take_succ_cons, totalSelected_cons] at hcond
            rw [List.getElem?_cons_succ]
            apply ih.2.2.2 j
            · rw [hlen1]
              omega
            · simp only [List.length_cons] at hjlt
              omega

theorem annLe_trans (a b c : AnnData) (h1 : annLe a b = true) (h2 : annLe b c = true) :
    annLe a c = true := by
  simp only [annLe, decide_eq_true_eq] at *
  omega

theorem annLe_total (a b : AnnData) : (annLe a b || annLe b a) = true := by
  simp only [annLe, Bool.or_eq_true, decide_eq_true_eq]
  omega

theorem insertAnn_perm (a : AnnData) : ∀ (l : List AnnData),
    (insertAnn a l).Perm (a :: l)
  | [] => List.Perm.refl _
  | b :: l => by
    rw [insertAnn]
    by_cases hle : annLe a b
    · rw [if_pos hle]
    · rw [if_neg hle]
      exact ((insertAnn_perm a l).cons b).trans (List.Perm.swap a b l)

theorem sortAnns_perm : ∀ (l : List AnnData), (sortAnns l).Perm l
  | [] => List.Perm.refl _
  | a :: l => by
    rw [sortAnns]
    exact (insertAnn_perm a (sortAnns l)).trans ((sortAnns_perm l).cons a)

theorem sortAnns_length (l : List AnnData) : (sortAnns l).length = l.length :=
  (sortAnns_perm l).length_eq

theorem insertAnn_sorted (a : AnnData) : ∀ (l : List AnnData),
    List.Pairwise (fun x y : AnnData => x.hash_pfx ≤ y.hash_pfx) l →
    List.Pairwise (fun x y : AnnData => x.hash_pfx ≤ y.hash_pfx) (insertAnn a l)
  | [], _ => by
    rw [insertAnn]
    simp
  | b :: l, hp => by
    rw [insertAnn]
    obtain ⟨hb, hl⟩ := List.pairwise_cons.mp hp
    by_cases hle : annLe a b
    · rw [if_pos hle]
      have hab : a.hash_pfx ≤ b.hash_pfx := by simpa [annLe] using hle
      refine List.pairwise_cons.mpr ⟨?_, hp⟩
      intro x hx
      rcases List.mem_cons.mp hx with rfl | hx'
      · exact hab
      · exact Nat.le_trans hab (hb x hx')
    · rw [if_neg hle]
      have hba : b.hash_pfx ≤ a.hash_pfx := by
        simp only [annLe, decide_eq_true_eq] at hle
        omega
      refine List.pairwise_cons.mpr ⟨?_, insertAnn_sorted a l hl⟩
      intro x hx
      have hx' := (insertAnn_perm a l).mem_iff.mp hx
      rcases List.mem_cons.mp hx' with rfl | hx''
      · exact hba
      · exact hb x hx''

theorem sortAnns_sorted_pfx : ∀ (l : List AnnData),
    List.Pairwise (fun a b : AnnData => a.hash_pfx ≤ b.hash_pfx) (sortAnns l)
  | [] => by rw [sortAnns]; exact List.Pairwise.nil
  | a :: l => by
    rw [sortAnns]
    exact insertAnn_sorted a (sortAnns l) (sortAnns_sorted_pfx l)

theorem lock_inv (buf lbuf : AnnBuf) (h : buf.lock = some lbuf) :
    buf.locked = false ∧
    0 < buf.ranges.length ∧
    buf.next_ann_index ≤ buf.ann_data.length ∧
    ∃ a0 rs r,
      (sortAnns (buf.ann_data.take buf.next_ann_index)
        ++ buf.ann_data.drop buf.next_ann_index)[0]? = some a0 ∧
      lockScan buf.ranges.length
        (sortAnns (buf.ann_data.take buf.next_ann_index)) 0
        (a0.hash_pfx % buf.ranges.length) 0 buf.ranges = some (rs, r) ∧
      r < rs.length ∧
      lbuf = { buf with
        ann_data := sortAnns (buf.ann_data.take buf.next_ann_index)
          ++ buf.ann_data.drop buf.next_ann_index,
        ranges := rs.set r buf.next_ann_index,
        locked := true } := by
  rw [AnnBuf.lock] at h
  by_cases hl : buf.locked
  · rw [if_pos (by simp [hl])] at h
    simp at h
  · rw [if_neg (by simp [hl])] at h
    simp only [] at h
    by_cases hR : buf.ranges.length = 0
    · rw [if_pos hR] at h
      simp at h
    · rw [if_neg hR] at h
      by_cases hlast : buf.next_ann_index > buf.ann_data.length
      · rw [if_pos hlast] at h
        simp at h
      · rw [if_neg hlast] at h
        refine ⟨by simpa using hl, by omega, by omega, ?_⟩
        cases ha0 : (sortAnns (buf.ann_data.take buf.next_ann_index)
            ++ buf.ann_data.drop buf.next_ann_index)[0]? with
        | none => rw [ha0] at h; simp at h
        | some a0 =>
          rw [ha0] at h
          simp only [] at h
          cases hsc : lockScan buf.ranges.length
              (sortAnns (buf.ann_data.take buf.next_ann_index)) 0
              (a0.hash_pfx % buf.ranges.length) 0 buf.ranges with
          | none => rw [hsc] at h; simp at h
          | some rr =>
            obtain ⟨rs, r⟩ := rr
            rw [hsc] at h
            simp only [] at h
            by_cases hrlt : r < rs.length
            · rw [if_pos hrlt] at h
              exact ⟨a0, rs, r, rfl, hsc, hrlt, (Option.some.inj h).symm⟩
            · rw [if_neg hrlt] at h
              simp at h

theorem lock_eq (buf : AnnBuf) (hl : buf.locked = false) (hR : 0 < buf.ranges.length)
    (hlast : buf.next_ann_index ≤ buf.ann_data.length) (a0 : AnnData)
    (ha0 : (sortAnns (buf.ann_data.take buf.next_ann_index)
      ++ buf.ann_data.drop buf.next_ann_index)[0]? = some a0) :
    buf.lock =
      match lockScan buf.ranges.length
          (sortAnns (buf.ann_data.take buf.next_ann_index)) 0
          (a0.hash_pfx % buf.ranges.length) 0 buf.ranges with
      | some (rs, r) =>
        if r < rs.length then
          some { buf with
            ann_data := sortAnns (buf.ann_data.take buf.next_ann_index)
              ++ buf.ann_data.drop buf.next_ann_index,
            ranges := rs.set r buf.next_ann_index, locked := true }
        else none
      | none => none := by
  rw [AnnBuf.lock, if_neg (by simp [hl])]
  simp only []
  rw [if_neg (by omega), if_neg (by omega), ha0]

theorem changeIdxs_cons (R : Nat) (ad : AnnData) (rest : List AnnData) (i pfx : Nat) :
    changeIdxs R (ad :: rest) i pfx =
      (if ad.hash_pfx % R ≠ pfx then [i] else []) ++
        changeIdxs R rest (i + 1) (ad.hash_pfx % R) := by
  rw [changeIdxs]
  by_cases hp : ad.hash_pfx % R ≠ pfx
  · rw [if_pos hp, if_pos hp]
    rfl
  · rw [if_neg hp, if_neg hp]
    have hpe : ad.hash_pfx % R = pfx := by
      by_contra hc
      exact hp hc
    rw [hpe]
    rfl

theorem changeIdxs_mem_bounds (R : Nat) : ∀ (l : List AnnData) (i pfx c : Nat),
    c ∈ changeIdxs R l i pfx → i ≤ c ∧ c < i + l.length
  | [], i, pfx, c, h => by rw [changeIdxs] at h; simp at h
  | ad :: rest, i, pfx, c, h => by
    rw [changeIdxs_cons] at h
    rcases List.mem_append.mp h with h' | h'
    · have : c = i := by
        by_cases hp : ad.hash_pfx % R ≠ pfx
        · rw [if_pos hp] at h'
          simpa using h'
        · rw [if_neg hp] at h'
          simp at h'
      subst this
      simp
    · have := changeIdxs_mem_bounds R rest (i + 1) (ad.hash_pfx % R) c h'
      simp only [List.length_cons]
      omega

theorem changeIdxs_sorted (R : Nat) : ∀ (l : List AnnData) (i pfx : Nat),
    List.Pairwise (· < ·) (changeIdxs R l i pfx)
  | [], i, pfx => by rw [changeIdxs]; exact List.Pairwise.nil
  | ad :: rest, i, pfx => by
    rw [changeIdxs_cons]
    apply List.pairwise_append.mpr
    refine ⟨?_, changeIdxs_sorted R rest (i + 1) (ad.hash_pfx % R), ?_⟩
    · split
      · simp
      · simp
    · intro a ha b hb
      have hbb := changeIdxs_mem_bounds R rest (i + 1) (ad.hash_pfx % R) b hb
      have haa : a = i := by
        split at ha
        · simpa using ha
        · simp at ha
      omega

theorem changeIdxs_adj (R : Nat) : ∀ (l : List AnnData) (i pfx m : Nat), i ≤ m →
    m + 1 - i < l.length → (m + 1) ∉ changeIdxs R l i pfx →
    bucketOf R (l.getD (m + 1 - i) default) = bucketOf R (l.getD (m - i) default)
  | [], _, _, _, _, hlen, _ => by simp at hlen
  | a :: rest, i, pfx, m, him, hlen, hnm => by
    by_cases hmi : m = i
    · subst hmi
      have h1 : m + 1 - m = 1 := by omega
      have h0 : m - m = 0 := by omega
      rw [h1, h0]
      cases rest with
      | nil => rw [h1] at hlen; simp at hlen
      | cons b rest' =>
        simp only [List.getD_cons_succ, List.getD_cons_zero]
        by_contra hne
        apply hnm
        rw [changeIdxs_cons]
        apply List.mem_append.mpr
        right
        rw [changeIdxs_cons]
        apply List.mem_append.mpr
        left
        have : ¬(b.hash_pfx % R = a.hash_pfx % R) := by
          simpa [bucketOf, List.getD_cons_zero] using hne
        rw [if_pos this]
        simp
    · have hi1 : i + 1 ≤ m := by omega
      have hsub1 : m + 1 - i = (m - i) + 1 := by omega
      have hsub2 : m - i = (m - (i + 1)) + 1 := by omega
      have hrec := changeIdxs_adj R rest (i + 1) (a.hash_pfx % R) m hi1
        (by simp only [List.length_cons] at hlen; omega)
        (by
          intro hc
          apply hnm
          rw [changeIdxs_cons]
          exact List.mem_append.mpr (Or.inr hc))
      have e1 : (a :: rest).getD (m + 1 - i) default = rest.getD (m + 1 - (i + 1)) default := by
        rw [hsub1, List.getD_cons_succ]
        congr 1
        omega
      have e2 : (a :: rest).getD (m - i) default = rest.getD (m - (i + 1)) default := by
        rw [hsub2, List.getD_cons_succ]
      rw [e1, e2]
      exact hrec

theorem changeIdxs_gap (R : Nat) (l : List AnnData) (pfx : Nat) (m : Nat) :
    ∀ (n : Nat), m ≤ n → n < l.length →
    (∀ c ∈ changeIdxs R l 0 pfx, ¬(m < c ∧ c ≤ n)) →
    bucketOf R (l.getD n default) = bucketOf R (l.getD m default)
  | 0, hmn, _, _ => by
    have hm0 : m = 0 := by omega
    rw [hm0]
  | n + 1, hmn, hlen, hgap => by
    by_cases he : m = n + 1
    · rw [he]
    · have hm : m ≤ n := by omega
      have hadj : (n + 1) ∉ changeIdxs R l 0 pfx := by
        intro hc
        exact hgap _ hc ⟨by omega, by omega⟩
      have h1 := changeIdxs_adj R l 0 pfx n (by omega) (by simpa using hlen) hadj
      have h2 := changeIdxs_gap R l pfx m n hm (by omega)
        (fun c hc hand => hgap c hc ⟨hand.1, by omega⟩)
      simp only [Nat.sub_zero] at h1
      rw [h1, h2]

theorem lockScan_eq (R : Nat) : ∀ (l : List AnnData) (i pfx r : Nat) (rs : List Nat),
    r ≤ rs.length →
    lockScan R l i pfx r rs =
      if r + (changeIdxs R l i pfx).length ≤ rs.length then
        some (setFrom rs r (changeIdxs R l i pfx), r + (changeIdxs R l i pfx).length)
      else none
  | [], i, pfx, r, rs, hr => by
    rw [lockScan, changeIdxs, if_pos (by simpa using hr)]
    rfl
  | ad :: rest, i, pfx, r, rs, hr => by
    rw [lockScan, changeIdxs]
    by_cases hp : ad.hash_pfx % R ≠ pfx
    · rw [if_pos hp, if_pos hp]
      by_cases hrlt : r < rs.length
      · rw [if_pos hrlt]
        rw [lockScan_eq R rest (i + 1) (ad.hash_pfx % R) (r + 1) (rs.set r i)
          (by rw [List.length_set]; omega)]
        rw [List.length_set]
        by_cases hc : (r + 1) + (changeIdxs R rest (i + 1) (ad.hash_pfx % R)).length
            ≤ rs.length
        · rw [if_pos hc, if_pos (by simp only [List.length_cons]; omega)]
          rw [setFrom, List.length_cons]
          rw [show r + 1 + (changeIdxs R rest (i + 1) (ad.hash_pfx % R)).length
            = r + ((changeIdxs R rest (i + 1) (ad.hash_pfx % R)).length + 1) from by omega]
        · rw [if_neg hc, if_neg (by simp only [List.length_cons]; omega)]
      · rw [if_neg hrlt]
        rw [if_neg (by simp only [List.length_cons]; omega)]
    · rw [if_neg hp, if_neg hp]
      exact lockScan_eq R rest (i + 1) pfx r rs hr

theorem bucketChanges_eq (R : Nat) (l : List AnnData) :
    bucketChanges R l = (changeIdxs R l 0 (bucketOf R (l.headD default))).length := rfl

theorem setFrom_length : ∀ (cs rs : List Nat) (r : Nat),
    (setFrom rs r cs).length = rs.length
  | [], _, _ => rfl
  | c :: cs, rs, r => by rw [setFrom, setFrom_length cs, List.length_set]

theorem headD_eq_getElem {α} [Inhabited α] (l : List α) (h : 0 < l.length) :
    l.headD default = l[0] := by
  cases l with
  | nil => simp at h
  | cons x xs => rfl

theorem lock_structure (buf lbuf : AnnBuf) (h : buf.lock = some lbuf) :
    lbuf.locked = true ∧
    lbuf.next_ann_index = buf.next_ann_index ∧
    lbuf.base_offset = buf.base_offset ∧
    lbuf.ann_data = sortAnns (buf.ann_data.take buf.next_ann_index)
      ++ buf.ann_data.drop buf.next_ann_index ∧
    lbuf.ann_data.length = buf.ann_data.length ∧
    lbuf.ann_data.take buf.next_ann_index
      = sortAnns (buf.ann_data.take buf.next_ann_index) ∧
    lbuf.ranges.length = buf.ranges.length ∧
    bucketChanges buf.ranges.length
        (sortAnns (buf.ann_data.take buf.next_ann_index))
      < buf.ranges.length ∧
    (∀ m, m ≤ bucketChanges buf.ranges.length
        (sortAnns (buf.ann_data.take buf.next_ann_index)) →
      lbuf.ranges[m]? =
        (changeIdxs buf.ranges.length
            (sortAnns (buf.ann_data.take buf.next_ann_index)) 0
            (bucketOf buf.ranges.length
              ((sortAnns (buf.ann_data.take buf.next_ann_index)).headD default))
          ++ [buf.next_ann_index])[m]?) := by
  obtain ⟨hnl, hR, hle, a0, rs, r, ha0, hsc, hrlt, hlb⟩ := lock_inv buf lbuf h
  set sorted := sortAnns (buf.ann_data.take buf.next_ann_index) with hsorted
  have hslen : sorted.length = buf.next_ann_index := by
    rw [hsorted, sortAnns_length, List.length_take]
    omega
  have hcs : changeIdxs buf.ranges.length sorted 0
        (a0.hash_pfx % buf.ranges.length)
      = changeIdxs buf.ranges.length sorted 0
        (bucketOf buf.ranges.length (sorted.headD default)) := by
    by_cases hse : sorted = []
    · rw [hse]
      rfl
    · have hpos : 0 < sorted.length := List.length_pos.mpr hse
      have hap : (sorted ++ buf.ann_data.drop buf.next_ann_index)[0]? = sorted[0]? := by
        rw [List.getElem?_append, if_pos hpos]
      rw [hap, List.getElem?_eq_getElem hpos] at ha0
      have ha0' : a0 = sorted[0] := by
        injection ha0 with h'
        exact h'.symm
      rw [bucketOf, headD_eq_getElem sorted hpos, ← ha0']
  have hscan := lockScan_eq buf.ranges.length sorted 0
    (a0.hash_pfx % buf.ranges.length) 0 buf.ranges (by omega)
  rw [hscan] at hsc
  by_cases hcond : 0 + (changeIdxs buf.ranges.length sorted 0
      (a0.hash_pfx % buf.ranges.length)).length ≤ buf.ranges.length
  · rw [if_pos hcond] at hsc
    injection hsc with hsc'
    injection hsc' with h1 h2
    have hrs_len : rs.length = buf.ranges.length := by
      rw [← h1, setFrom_length]
    have hchg : bucketChanges buf.ranges.length sorted
        = (changeIdxs buf.ranges.length sorted 0
            (a0.hash_pfx % buf.ranges.length)).length := by
      rw [bucketChanges_eq, ← hcs]
    have hchg_lt : bucketChanges buf.ranges.length sorted < buf.ranges.length := by
      rw [hchg]
      omega
    have hdata : lbuf.ann_data = sorted ++ buf.ann_data.drop buf.next_ann_index := by
      rw [hlb]
    have hdlen : lbuf.ann_data.length = buf.ann_data.length := by
      rw [hdata, List.length_append, hslen, List.length_drop]
      omega
    have htake : lbuf.ann_data.take buf.next_ann_index = sorted := by
      rw [hdata]
      exact List.take_left' hslen
    refine ⟨by rw [hlb], by rw [hlb], by rw [hlb], hdata, hdlen, htake,
      by rw [hlb]; simp only []; rw [List.length_set, hrs_len], hchg_lt, ?_⟩
    intro m hm
    rw [hlb]
    simp only []
    rw [← h1, ← h2, hcs]
    rw [List.getElem?_set]
    rw [setFrom_length]
    by_cases hmc : m = (changeIdxs buf.ranges.length sorted 0
        (bucketOf buf.ranges.length (sorted.headD default))).length
    · rw [if_pos (by omega)]
      rw [if_pos (by rw [hchg, hcs] at hchg_lt; omega)]
      rw [List.getElem?_append, if_neg (by omega)]
      rw [hmc]
      simp
    · rw [if_neg (by omega)]
      rw [setFrom_getElem?]
      rw [bucketChanges_eq] at hm
      rw [if_pos (by
        refine ⟨by omega, by omega, ?_⟩
        rw [hchg, hcs] at hchg_lt
        omega)]
      rw [List.getElem?_append, if_pos (by omega), Nat.sub_zero]
  · rw [if_neg hcond] at hsc
    simp at hsc

theorem reservedSpans_lb (SZ : Nat) : ∀ (evs : List CursorEvent) (c m : Nat),
    m ≤ c → m ≤ SZ → ∀ sp ∈ reservedSpans SZ c evs, m ≤ sp.1
  | [], _, _, _, _, _, hsp => by rw [reservedSpans] at hsp; simp at hsp
  | CursorEvent.reserve len :: evs, c, m, hmc, hms, sp, hsp => by
    rw [reservedSpans] at hsp
    rcases List.mem_cons.mp hsp with rfl | hsp'
    · exact hmc
    · exact reservedSpans_lb SZ evs (c + len) m (by omega) hms sp hsp'
  | CursorEvent.clamp :: evs, c, m, hmc, hms, sp, hsp => by
    rw [reservedSpans] at hsp
    exact reservedSpans_lb SZ evs SZ m hms hms sp hsp

theorem reservedSpans_chain (SZ : Nat) : ∀ (evs : List CursorEvent) (c : Nat),
    List.Pairwise (fun s t : Nat × Nat => s.2 ≤ t.1) (reservedSpans SZ c evs)
  | [], _ => by rw [reservedSpans]; exact List.Pairwise.nil
  | CursorEvent.reserve len :: evs, c => by
    rw [reservedSpans]
    refine List.Pairwise.cons ?_ (reservedSpans_chain SZ evs (c + len))
    intro sp hsp
    exact reservedSpans_lb SZ evs (c + len) (min (c + len) SZ) (by omega) (by omega)
      sp hsp
  | CursorEvent.clamp :: evs, _ => by
    rw [reservedSpans]
    exact reservedSpans_chain SZ evs SZ

/-- Claim C9: across any interleaving of concurrent push_anns calls, the slot spans
claimed through the atomic cursor (fetch_add, with the capacity clamp stores) are
pairwise disjoint: no two reserve events ever write the same record-array slot, nor
the same byte-store location base_offset + slot. -/
theorem claim_C9 (SZ base : Nat) (evs : List CursorEvent) :
    List.Pairwise (fun s t : Nat × Nat =>
      ∀ i j : Nat, s.1 ≤ i → i < s.2 → t.1 ≤ j → j < t.2 →
        i ≠ j ∧ base + i ≠ base + j)
      (reservedSpans SZ 0 evs) := by
  refine (reservedSpans_chain SZ evs 0).imp ?_
  intro s t hst
  intro i j hi1 hi2 hj1 hj2
  exact ⟨by omega, by omega⟩

/-- Claim C2: a successful push on an unlocked buffer with cursor c and selection
length L returns min L (CAPACITY - c) — in particular 0 when c = CAPACITY — and leaves
the cursor at min (c + L) CAPACITY, never exceeding CAPACITY; over any successful call
sequence on a fresh buffer whose total reaches CAPACITY the returned counts sum to
exactly CAPACITY, and every call made after capacity is reached returns 0. -/
theorem claim_C2 :
    (∀ (buf : AnnBuf) (anns : List (List Nat)) (indexes hashes : List Nat)
      (ret : Nat) (buf' : AnnBuf) (ws : List DbWrite),
      buf.next_ann_index ≤ buf.ann_data.length →
      buf.push_anns anns indexes hashes = some (ret, buf', ws) →
      ret = min indexes.length (buf.ann_data.length - buf.next_ann_index) ∧
      buf'.next_ann_index = min (buf.next_ann_index + indexes.length)
        buf.ann_data.length ∧
      buf'.next_ann_index ≤ buf.ann_data.length ∧
      (buf.next_ann_index = buf.ann_data.length → ret = 0)) ∧
    (∀ (SZ R base : Nat) (cs : List PushCall) (buf' : AnnBuf) (ns : List Nat)
      (ws : List DbWrite),
      pushSeq (AnnBuf.new SZ R base) cs = some (buf', ns, ws) →
      (SZ ≤ totalSelected cs → ns.sum = SZ) ∧
      (∀ j, SZ ≤ totalSelected (cs.take j) → j < ns.length → ns[j]? = some 0)) := by
  constructor
  · intro buf anns indexes hashes ret buf' ws hle hp
    have hc := push_counts buf anns indexes hashes ret buf' ws hp hle
    refine ⟨hc.1, hc.2, by omega, by intro he; omega⟩
  · intro SZ R base cs buf' ns ws hp
    have hnew_next : (AnnBuf.new SZ R base).next_ann_index = 0 := rfl
    have hnew_len : (AnnBuf.new SZ R base).ann_data.length = SZ := by
      rw [AnnBuf.new]
      simp
    have hc := pushSeq_counts cs (AnnBuf.new SZ R base) buf' ns ws hp
      (by rw [hnew_next, hnew_len]; omega)
    rw [hnew_next, hnew_len] at hc
    refine ⟨?_, ?_⟩
    · intro htot
      have h1 := hc.2.1
      have h2 := hc.2.2.1
      omega
    · intro j hj hjl
      exact hc.2.2.2 j (by omega) hjl

theorem claim_C2_witness :
    ((1 : Nat) = min 1 (2 - 0) ∧ (1 : Nat) = min (0 + 1) 2 ∧ (1 : Nat) ≤ 2 ∧
      ((0 : Nat) = 2 → (1 : Nat) = 0)) ∧
    ([1, 0] : List Nat).sum = 1 ∧
    ([1, 0] : List Nat)[1]? = some 0 := by
  refine ⟨?_, ?_, ?_⟩
  · exact claim_C2.1 (AnnBuf.new 2 2 0) [[7]] [0] [5] 1
      { base_offset := 0, next_ann_index := 1,
        ann_data := [⟨5, 0⟩, ⟨0, 0⟩], ranges := [0, 0], locked := false }
      [⟨0, [7], 5⟩] (by decide) (by rfl)
  · exact (claim_C2.2 1 1 0 [⟨[[7]], [0], [5]⟩, ⟨[[7]], [0], [5]⟩]
      { base_offset := 0, next_ann_index := 1,
        ann_data := [⟨5, 0⟩], ranges := [0], locked := false }
      [1, 0] [⟨0, [7], 5⟩] (by rfl)).1 (by decide)
  · exact (claim_C2.2 1 1 0 [⟨[[7]], [0], [5]⟩, ⟨[[7]], [0], [5]⟩]
      { base_offset := 0, next_ann_index := 1,
        ann_data := [⟨5, 0⟩], ranges := [0], locked := false }
      [1, 0] [⟨0, [7], 5⟩] (by rfl)).2 1 (by decide) (by decide)

/-- Claim C7 (code bug): the state-machine asserts exist for push after lock, double
lock, iter before lock and read before lock, but range_count has no locked assert: on
a freshly constructed, still unlocked buffer it silently returns a count (some 0)
instead of failing. -/
theorem claim_C7 :
    (AnnBuf.new 8 4 0).locked = false ∧
    (AnnBuf.new 8 4 0).range_count 0 = some 0 ∧
    (AnnBuf.new 8 4 0).iter 0 = none ∧
    (AnnBuf.new 8 4 0).read_ready_anns [] = none ∧
    ((AnnBuf.new 8 4 0).lock).bind (fun lb => lb.push_anns [] [] []) = none ∧
    ((AnnBuf.new 8 4 0).lock).bind AnnBuf.lock = none := by
  refine ⟨rfl, by decide, by decide, by decide, by decide, by decide⟩

/-- Claim C10: push_anns uses unchecked indexing on the candidate and hash arrays: a
call whose selection entries are all within both arrays completes, while — when the
buffer has spare capacity, so that no entry is silently truncated away — a selection
entry outside either array makes the whole call fail rather than being skipped. -/
theorem claim_C10 (buf : AnnBuf) (anns : List (List Nat)) (indexes hashes : List Nat)
    (hnl : buf.locked = false) :
    ((∀ ci ∈ indexes, ci < anns.length ∧ ci < hashes.length) →
      (buf.push_anns anns indexes hashes).isSome) ∧
    (buf.next_ann_index + indexes.length ≤ buf.ann_data.length →
      (∃ ci ∈ indexes, anns.length ≤ ci ∨ hashes.length ≤ ci) →
      buf.push_anns anns indexes hashes = none) := by
  constructor
  · intro hv
    apply (push_isSome_iff buf anns indexes hashes).mpr
    refine ⟨hnl, Or.inr ?_⟩
    intro ci hci
    apply hv
    by_cases hc : buf.ann_data.length < buf.next_ann_index + indexes.length
    · rw [if_pos hc] at hci
      exact List.take_subset _ _ hci
    · rw [if_neg hc] at hci
      exact hci
  · intro hfit hex
    obtain ⟨ci, hci, hor⟩ := hex
    cases hres : buf.push_anns anns indexes hashes with
    | none => rfl
    | some out =>
      obtain ⟨ret, buf2, ws⟩ := out
      obtain ⟨-, hcase⟩ := push_inv buf anns indexes hashes ret buf2 ws hres
      rcases hcase with ⟨hge, _⟩ | ⟨hlt, hfit2, hret, hval, _⟩
      · have hlen0 : indexes.length = 0 := by omega
        rw [List.length_eq_zero.mp hlen0] at hci
        simp at hci
      · have hnc : ¬(buf.ann_data.length < buf.next_ann_index + indexes.length) := by
          omega
        rw [if_neg hnc] at hval
        have := hval ci hci
        omega

theorem claim_C10_witness :
    ((AnnBuf.new 2 2 0).push_anns [[7]] [0] [5]).isSome ∧
    (AnnBuf.new 2 2 0).push_anns [[7]] [3] [5] = none := by
  constructor
  · exact (claim_C10 (AnnBuf.new 2 2 0) [[7]] [0] [5] (by rfl)).1 (by decide)
  · exact (claim_C10 (AnnBuf.new 2 2 0) [[7]] [3] [5] (by rfl)).2 (by decide)
      ⟨3, by decide, by decide⟩

theorem lock_scan_init (buf : AnnBuf) (a0 : AnnData)
    (ha0 : (sortAnns (buf.ann_data.take buf.next_ann_index)
      ++ buf.ann_data.drop buf.next_ann_index)[0]? = some a0) :
    changeIdxs buf.ranges.length (sortAnns (buf.ann_data.take buf.next_ann_index)) 0
        (a0.hash_pfx % buf.ranges.length)
      = changeIdxs buf.ranges.length (sortAnns (buf.ann_data.take buf.next_ann_index)) 0
        (bucketOf buf.ranges.length
          ((sortAnns (buf.ann_data.take buf.next_ann_index)).headD default)) := by
  set sorted := sortAnns (buf.ann_data.take buf.next_ann_index) with hsorted
  by_cases hse : sorted = []
  · rw [hse]
    rfl
  · have hpos : 0 < sorted.length := List.length_pos.mpr hse
    have hap : (sorted ++ buf.ann_data.drop buf.next_ann_index)[0]? = sorted[0]? := by
      rw [List.getElem?_append, if_pos hpos]
    rw [hap, List.getElem?_eq_getElem hpos] at ha0
    have ha0' : a0 = sorted[0] := by
      injection ha0 with h'
      exact h'.symm
    rw [bucketOf, headD_eq_getElem sorted hpos, ← ha0']

/-- Exact success condition of lock: the buffer is unlocked, both arrays are
addressable, the cursor is in range, and the number of bucket-id changes of the
sorted filled records is below RANGES (so every boundary write is in bounds). -/
theorem lock_isSome_iff (buf : AnnBuf) :
    (buf.lock).isSome = true ↔
      buf.locked = false ∧ 0 < buf.ranges.length ∧ 0 < buf.ann_data.length ∧
      buf.next_ann_index ≤ buf.ann_data.length ∧
      bucketChanges buf.ranges.length
          (sortAnns (buf.ann_data.take buf.next_ann_index))
        < buf.ranges.length := by
  constructor
  · intro h
    obtain ⟨l, hl⟩ := Option.isSome_iff_exists.mp h
    obtain ⟨hnl, hR, hle, a0, rs, r, ha0, hsc, hrlt, hlb⟩ := lock_inv buf l hl
    obtain ⟨-, -, -, -, -, -, -, hchg_lt, -⟩ := lock_structure buf l hl
    have hSZ : 0 < buf.ann_data.length := by
      by_contra hz
      have hz0 : buf.ann_data.length = 0 := by omega
      have : (sortAnns (buf.ann_data.take buf.next_ann_index)
          ++ buf.ann_data.drop buf.next_ann_index).length = 0 := by
        rw [List.length_append, sortAnns_length, List.length_take, List.length_drop]
        omega
      rw [List.getElem?_eq_none (by omega)] at ha0
      exact absurd ha0 (by simp)
    exact ⟨hnl, hR, hSZ, hle, hchg_lt⟩
  · rintro ⟨hnl, hR, hSZ, hle, hch⟩
    have hdlen : (sortAnns (buf.ann_data.take buf.next_ann_index)
        ++ buf.ann_data.drop buf.next_ann_index).length = buf.ann_data.length := by
      rw [List.length_append, sortAnns_length, List.length_take, List.length_drop]
      omega
    have h0 : 0 < (sortAnns (buf.ann_data.take buf.next_ann_index)
        ++ buf.ann_data.drop buf.next_ann_index).length := by omega
    have ha0 := List.getElem?_eq_getElem h0
    have hlockeq := lock_eq buf hnl hR hle _ ha0
    rw [lockScan_eq buf.ranges.length _ 0 _ 0 buf.ranges (by omega)] at hlockeq
    rw [lock_scan_init buf _ ha0] at hlockeq
    rw [← bucketChanges_eq] at hlockeq
    rw [hlockeq, if_pos (by omega)]
    simp only []
    rw [if_pos (by rw [setFrom_length]; omega)]
    rfl

/-- Claim C3: when the sorted filled records show at most BUCKET_COUNT - 1 bucket-id
changes, every boundary write of the lock scan is within bounds and lock succeeds;
when the changes exceed BUCKET_COUNT - 1, the out-of-range boundary write is caught by
the bounds check and lock fails (a panic, modelled as none) rather than writing out of
bounds. -/
theorem claim_C3 (buf : AnnBuf)
    (hnl : buf.locked = false) (hR : 0 < buf.ranges.length)
    (hSZ : 0 < buf.ann_data.length)
    (hle : buf.next_ann_index ≤ buf.ann_data.length) :
    (bucketChanges buf.ranges.length (sortAnns (buf.ann_data.take buf.next_ann_index))
        ≤ buf.ranges.length - 1 → (buf.lock).isSome) ∧
    (buf.ranges.length - 1 <
        bucketChanges buf.ranges.length
          (sortAnns (buf.ann_data.take buf.next_ann_index)) →
      buf.lock = none) := by
  constructor
  · intro hch
    exact (lock_isSome_iff buf).mpr ⟨hnl, hR, hSZ, hle, by omega⟩
  · intro hch
    apply Option.not_isSome_iff_eq_none.mp
    intro hsome
    have := (lock_isSome_iff buf).mp hsome
    omega

theorem claim_C3_witness :
    (AnnBuf.lock
      { base_offset := 0, next_ann_index := 4,
        ann_data := [⟨40, 0⟩, ⟨17, 1⟩, ⟨33, 2⟩, ⟨8, 3⟩,
          ⟨0, 0⟩, ⟨0, 0⟩, ⟨0, 0⟩, ⟨0, 0⟩],
        ranges := [0, 0, 0, 0], locked := false }).isSome = true ∧
    AnnBuf.lock
      { base_offset := 0, next_ann_index := 4,
        ann_data := [⟨0, 0⟩, ⟨1, 1⟩, ⟨2, 2⟩, ⟨3, 3⟩],
        ranges := [0, 0], locked := false } = none := by
  constructor
  · exact (claim_C3 _ (by decide) (by decide) (by decide) (by decide)).1 (by decide)
  · exact (claim_C3 _ (by decide) (by decide) (by decide) (by decide)).2 (by decide)

theorem changeBounds_sorted (R : Nat) (l : List AnnData) (p0 : Nat) :
    List.Pairwise (· < ·) (changeIdxs R l 0 p0 ++ [l.length]) := by
  apply List.pairwise_append.mpr
  refine ⟨changeIdxs_sorted R l 0 p0, by simp, ?_⟩
  intro a ha b hb
  have hb' : b = l.length := List.mem_singleton.mp hb
  have := changeIdxs_mem_bounds R l 0 p0 a ha
  omega

theorem partial_sum_tele (f : Nat → Nat) (bs : List Nat)
    (hmono : List.Pairwise (· < ·) bs)
    (hf : ∀ k, k < bs.length →
      f k = bs.getD k 0 - (if k = 0 then 0 else bs.getD (k - 1) 0)) :
    ∀ m, m < bs.length → ((List.range (m + 1)).map f).sum = bs.getD m 0 := by
  intro m
  induction m with
  | zero =>
    intro h
    rw [show List.range (0 + 1) = [0] from rfl]
    simp only [List.map_cons, List.map_nil, List.sum_cons, List.sum_nil]
    rw [hf 0 h, if_pos rfl]
    omega
  | succ n ih =>
    intro h
    rw [List.range_succ, List.map_append, List.sum_append, ih (by omega)]
    simp only [List.map_cons, List.map_nil, List.sum_cons, List.sum_nil]
    rw [hf (n + 1) h, if_neg (Nat.succ_ne_zero n)]
    have hlt : bs.getD n 0 < bs.getD (n + 1) 0 := by
      have h1 : n < bs.length := by omega
      rw [List.getD_eq_getElem bs 0 h1, List.getD_eq_getElem bs 0 h]
      exact List.pairwise_iff_getElem.mp hmono n (n + 1) h1 h (by omega)
    simp only [Nat.add_sub_cancel]
    omega

/-- Claim C4: after lock, for every bucket index k whose range lies within the
boundaries recorded at lock time (k at most the number of observed bucket-id changes),
iter k succeeds, all yielded records share the same hash_pfx mod BUCKET_COUNT, and
they are yielded in non-decreasing hash_pfx order. -/
theorem claim_C4 (buf lbuf : AnnBuf) (k : Nat)
    (hlock : buf.lock = some lbuf)
    (hk : k ≤ bucketChanges lbuf.ranges.length
      (lbuf.ann_data.take lbuf.next_ann_index)) :
    ∃ recs, lbuf.iter k = some recs ∧
      (∀ x ∈ recs, ∀ y ∈ recs,
        x.hash_pfx % lbuf.ranges.length = y.hash_pfx % lbuf.ranges.length) ∧
      List.Sorted (· ≤ ·) (recs.map AnnData.hash_pfx) := by
  obtain ⟨hlk, hnext, hbase, hdata, hdlen, htake, hrlen, hchg_lt, hranges⟩ :=
    lock_structure buf lbuf hlock
  obtain ⟨hnl', hR', hle', -⟩ := lock_inv buf lbuf hlock
  rw [hnext, hrlen, htake] at hk
  rw [hrlen]
  set sorted := sortAnns (buf.ann_data.take buf.next_ann_index) with hsorted
  set cs := changeIdxs buf.ranges.length sorted 0
    (bucketOf buf.ranges.length (sorted.headD default)) with hcsdef
  rw [bucketChanges_eq] at hk hchg_lt
  rw [← hcsdef] at hk hchg_lt
  set bs := cs ++ [buf.next_ann_index] with hbs
  have hslen : sorted.length = buf.next_ann_index := by
    rw [hsorted, sortAnns_length, List.length_take]
    omega
  have hbs_len : bs.length = cs.length + 1 := by
    rw [hbs, List.length_append, List.length_singleton]
  have hbs_sorted : List.Pairwise (· < ·) bs := by
    have h := changeBounds_sorted buf.ranges.length sorted
      (bucketOf buf.ranges.length (sorted.headD default))
    rw [hslen] at h
    exact h
  have hbget : ∀ m, m ≤ cs.length → lbuf.ranges[m]? = some (bs.getD m 0) := by
    intro m hm
    rw [hranges m (by rw [bucketChanges_eq, ← hcsdef]; exact hm)]
    rw [List.getD_eq_getElem bs 0 (by omega)]
    exact List.getElem?_eq_getElem (by omega)
  have hbscs : ∀ m, m < cs.length → bs.getD m 0 = cs.getD m 0 := by
    intro m hm
    rw [List.getD_eq_getElem?_getD, List.getD_eq_getElem?_getD, hbs,
      List.getElem?_append, if_pos hm]
  have hbs_le : ∀ m, m ≤ cs.length → bs.getD m 0 ≤ buf.next_ann_index := by
    intro m hm
    by_cases hmc : m = cs.length
    · rw [hmc, List.getD_eq_getElem bs 0 (by omega),
        List.getElem_concat_length cs _ _ rfl]
    · have hmlt : m < cs.length := by omega
      rw [hbscs m hmlt, List.getD_eq_getElem cs 0 hmlt]
      have hmem : cs[m] ∈ cs := List.getElem_mem hmlt
      have hbd := changeIdxs_mem_bounds buf.ranges.length sorted 0
        (bucketOf buf.ranges.length (sorted.headD default)) cs[m] hmem
      omega
  set lo := (if k = 0 then 0 else bs.getD (k - 1) 0) with hlo
  set hi := bs.getD k 0 with hhi
  have hlo_le_hi : lo ≤ hi := by
    rw [hlo]
    cases k with
    | zero => rw [if_pos rfl]; omega
    | succ n =>
      rw [if_neg (Nat.succ_ne_zero n), show n + 1 - 1 = n from rfl, hhi]
      have h1 : n < bs.length := by omega
      have h2 : n + 1 < bs.length := by omega
      rw [List.getD_eq_getElem bs 0 h1, List.getD_eq_getElem bs 0 h2]
      exact Nat.le_of_lt
        (List.pairwise_iff_getElem.mp hbs_sorted n (n + 1) h1 h2 (by omega))
  have hhi_le : hi ≤ buf.next_ann_index := hbs_le k hk
  have hrange : lbuf.range k = some (lo, hi) := by
    rw [hlo, hhi]
    cases k with
    | zero =>
      rw [AnnBuf.range, if_pos rfl, hbget 0 (by omega)]
      simp
    | succ n =>
      rw [AnnBuf.range, if_neg (Nat.succ_ne_zero n),
        show n + 1 - 1 = n from rfl, hbget n (by omega), hbget (n + 1) hk]
      simp
  have hiter : lbuf.iter k = some ((List.range' lo (hi - lo)).map
      (fun i => lbuf.ann_data.getD i default)) := by
    rw [AnnBuf.iter, if_neg (by rw [hlk]; exact not_not_intro rfl), hrange]
    simp only []
    rw [if_neg (by
      intro hand
      have := hand.2
      omega)]
  have hslice0 : (List.range' lo (hi - lo)).map
      (fun i => lbuf.ann_data.getD i default)
      = (lbuf.ann_data.drop lo).take (hi - lo) :=
    range'_map_getD default (hi - lo) lo lbuf.ann_data (by omega)
  have hslice : (lbuf.ann_data.drop lo).take (hi - lo)
      = (sorted.drop lo).take (hi - lo) := by
    apply List.ext_getElem?
    intro n
    rw [List.getElem?_take, List.getElem?_take]
    split
    · next hn =>
      rw [List.getElem?_drop, List.getElem?_drop, hdata, List.getElem?_append,
        if_pos (by omega)]
    · rfl
  have hcs_sorted : List.Pairwise (· < ·) cs := by
    rw [hcsdef]
    exact changeIdxs_sorted buf.ranges.length sorted 0
      (bucketOf buf.ranges.length (sorted.headD default))
  have hgapcond : ∀ c ∈ cs, c ≤ lo ∨ hi ≤ c := by
    intro c hc
    obtain ⟨j, hj, hcj⟩ := List.mem_iff_getElem.mp hc
    cases k with
    | zero =>
      right
      have h0lt : 0 < cs.length := by omega
      have hhi0 : hi = cs[0] := by
        rw [hhi, hbscs 0 h0lt, List.getD_eq_getElem cs 0 h0lt]
      rcases Nat.eq_zero_or_pos j with hj0 | hjpos
      · subst hj0
        rw [hhi0, hcj]
      · have := List.pairwise_iff_getElem.mp hcs_sorted 0 j h0lt hj hjpos
        rw [hhi0, ← hcj]
        omega
    | succ n =>
      by_cases hjn : j ≤ n
      · left
        have hnlt : n < cs.length := by omega
        have hlon : lo = cs[n] := by
          rw [hlo, if_neg (Nat.succ_ne_zero n), show n + 1 - 1 = n from rfl,
            hbscs n hnlt, List.getD_eq_getElem cs 0 hnlt]
        rcases Nat.eq_or_lt_of_le hjn with hje | hjlt
        · subst hje
          rw [hlon, hcj]
        · have := List.pairwise_iff_getElem.mp hcs_sorted j n hj hnlt hjlt
          rw [hlon, ← hcj]
          omega
      · right
        have hn1lt : n + 1 < cs.length := by omega
        have hhin : hi = cs[n + 1] := by
          rw [hhi, hbscs (n + 1) hn1lt, List.getD_eq_getElem cs 0 hn1lt]
        rcases Nat.eq_or_lt_of_le (by omega : n + 1 ≤ j) with hje | hjlt
        · subst hje
          rw [hhin, ← hcj]
        · have := List.pairwise_iff_getElem.mp hcs_sorted (n + 1) j hn1lt hj hjlt
          rw [hhin, ← hcj]
          omega
  have hsame : ∀ p q, lo ≤ p → p ≤ q → q < hi →
      bucketOf buf.ranges.length (sorted.getD q default)
        = bucketOf buf.ranges.length (sorted.getD p default) := by
    intro p q hp hpq hq
    apply changeIdxs_gap buf.ranges.length sorted
      (bucketOf buf.ranges.length (sorted.headD default)) p q hpq (by omega)
    intro c hc hand
    rcases hgapcond c hc with hcle | hcge
    · omega
    · omega
  refine ⟨(sorted.drop lo).take (hi - lo), by rw [hiter, hslice0, hslice], ?_, ?_⟩
  · intro x hx y hy
    obtain ⟨ix, hix, hxe⟩ := List.mem_take_iff_getElem.mp hx
    obtain ⟨iy, hiy, hye⟩ := List.mem_take_iff_getElem.mp hy
    have hdlen2 : (sorted.drop lo).length = sorted.length - lo := List.length_drop _ _
    have hxd : x = sorted.getD (lo + ix) default := by
      rw [List.getD_eq_getElem?_getD, ← List.getElem?_drop,
        List.getElem?_eq_getElem (show ix < (sorted.drop lo).length from by omega),
        Option.getD_some]
      exact hxe.symm
    have hyd : y = sorted.getD (lo + iy) default := by
      rw [List.getD_eq_getElem?_getD, ← List.getElem?_drop,
        List.getElem?_eq_getElem (show iy < (sorted.drop lo).length from by omega),
        Option.getD_some]
      exact hye.symm
    have hxlt : lo + ix < hi := by omega
    have hylt : lo + iy < hi := by omega
    rcases Nat.le_total (lo + ix) (lo + iy) with hle | hle
    · have := hsame (lo + ix) (lo + iy) (by omega) hle hylt
      rw [hxd, hyd]
      rw [bucketOf, bucketOf] at this
      exact this.symm
    · have := hsame (lo + iy) (lo + ix) (by omega) hle hxlt
      rw [hxd, hyd]
      rw [bucketOf, bucketOf] at this
      exact this
  · apply List.pairwise_map.mpr
    have hsub : ((sorted.drop lo).take (hi - lo)).Sublist sorted :=
      (List.take_sublist _ _).trans (List.drop_sublist _ _)
    exact List.Pairwise.sublist hsub (by rw [hsorted]; exact sortAnns_sorted_pfx _)

/-- Claim C8: every record a push writes into reserved slot i carries
mloc = base_offset + i, the same location its raw bytes and hash are forwarded to in
the byte store, and lock only permutes the filled records, preserving the multiset of
(hash_pfx, mloc) pairs. -/
theorem claim_C8 (buf : AnnBuf) (anns : List (List Nat)) (indexes hashes : List Nat)
    (cnt : Nat) (buf' : AnnBuf) (ws : List DbWrite)
    (hpush : buf.push_anns anns indexes hashes = some (cnt, buf', ws)) :
    (∀ j, j < cnt →
      buf'.ann_data[buf.next_ann_index + j]? =
        some ⟨hashes.getD (indexes.getD j 0) 0,
          buf.base_offset + buf.next_ann_index + j⟩ ∧
      ws[j]? = some ⟨buf.base_offset + buf.next_ann_index + j,
        anns.getD (indexes.getD j 0) [], hashes.getD (indexes.getD j 0) 0⟩) ∧
    (∀ lbuf, buf'.lock = some lbuf →
      (lbuf.ann_data.take lbuf.next_ann_index).Perm
        (buf'.ann_data.take buf'.next_ann_index)) := by
  obtain ⟨hnl, hcase⟩ := push_inv buf anns indexes hashes cnt buf' ws hpush
  constructor
  · intro j hj
    rcases hcase with ⟨hge, hret, hws, hbuf⟩ | ⟨hlt, hfit, hret, hval, hws, hbuf⟩
    · omega
    · set idxs := (if buf.ann_data.length < buf.next_ann_index + indexes.length
        then indexes.take (buf.ann_data.length - buf.next_ann_index)
        else indexes) with hidxs
      have hjlen : j < idxs.length := by omega
      have hgd : idxs.getD j 0 = indexes.getD j 0 := by
        rw [hidxs]
        by_cases hc : buf.ann_data.length < buf.next_ann_index + indexes.length
        · rw [if_pos hc, List.getD_eq_getElem?_getD, List.getD_eq_getElem?_getD,
            List.getElem?_take, if_pos (by
              rw [hidxs, if_pos hc] at hjlen
              rw [List.length_take] at hjlen
              omega)]
        · rw [if_neg hc]
      constructor
      · rw [hbuf]
        simp only []
        rw [List.getElem?_append, if_pos (by
          simp only [List.length_append, List.length_take, recsOf_length]
          omega)]
        rw [List.getElem?_append, if_neg (by
          simp only [List.length_take]
          omega)]
        rw [show buf.next_ann_index + j
            - (buf.ann_data.take buf.next_ann_index).length = j from by
          rw [List.length_take]
          omega]
        rw [recsOf_getElem? buf.base_offset hashes buf.next_ann_index idxs j hjlen]
        rw [hgd]
      · rw [hws, wsOf_getElem? buf.base_offset anns hashes buf.next_ann_index idxs
          j hjlen, hgd]
  · intro lbuf hlock
    obtain ⟨hlk, hlnext, hlbase, hldata, hldlen, hltake, hlrlen, hlchg, hlranges⟩ :=
      lock_structure buf' lbuf hlock
    rw [hlnext, hltake]
    exact sortAnns_perm (buf'.ann_data.take buf'.next_ann_index)

theorem claim_C8_witness :
    (([⟨41, 5⟩, ⟨40, 6⟩] : List AnnData)[0]? = some ⟨41, 5⟩ ∧
      ([⟨5, [8], 41⟩, ⟨6, [9], 40⟩] : List DbWrite)[0]? = some ⟨5, [8], 41⟩) ∧
    List.Perm ([⟨40, 6⟩, ⟨41, 5⟩] : List AnnData) [⟨41, 5⟩, ⟨40, 6⟩] := by
  constructor
  · exact (claim_C8 (AnnBuf.new 2 2 5) [[9], [8]] [1, 0] [40, 41] 2
      { base_offset := 5, next_ann_index := 2,
        ann_data := [⟨41, 5⟩, ⟨40, 6⟩], ranges := [0, 0], locked := false }
      [⟨5, [8], 41⟩, ⟨6, [9], 40⟩] (by decide)).1 0 (by decide)
  · exact (claim_C8 (AnnBuf.new 2 2 5) [[9], [8]] [1, 0] [40, 41] 2
      { base_offset := 5, next_ann_index := 2,
        ann_data := [⟨41, 5⟩, ⟨40, 6⟩], ranges := [0, 0], locked := false }
      [⟨5, [8], 41⟩, ⟨6, [9], 40⟩] (by decide)).2
      { base_offset := 5, next_ann_index := 2,
        ann_data := [⟨40, 6⟩, ⟨41, 5⟩], ranges := [1, 2], locked := true }
      (by decide)

/-- Claim C5 (amended): after a successful lock, range_count is defined (no
underflowing subtraction) for every bucket index k up to the number of observed
bucket-id changes, and over exactly those buckets the counts sum to the filled length.
For bucket indexes beyond the observed changes the boundary entries are unwritten and
the subtraction underflows on a freshly constructed buffer (see the counterexample),
so the claim does not hold for every k below BUCKET_COUNT. -/
theorem claim_C5 (buf lbuf : AnnBuf) (hlock : buf.lock = some lbuf) :
    (∀ k, k ≤ bucketChanges lbuf.ranges.length
        (lbuf.ann_data.take lbuf.next_ann_index) →
      ∃ c, lbuf.range_count k = some c) ∧
    ((List.range (bucketChanges lbuf.ranges.length
        (lbuf.ann_data.take lbuf.next_ann_index) + 1)).map
      (fun k => (lbuf.range_count k).getD 0)).sum = lbuf.next_ann_index := by
  obtain ⟨hlk, hnext, hbase, hdata, hdlen, htake, hrlen, hchg_lt, hranges⟩ :=
    lock_structure buf lbuf hlock
  obtain ⟨hnl', hR', hle', -⟩ := lock_inv buf lbuf hlock
  rw [hnext, hrlen, htake]
  set sorted := sortAnns (buf.ann_data.take buf.next_ann_index) with hsorted
  set cs := changeIdxs buf.ranges.length sorted 0
    (bucketOf buf.ranges.length (sorted.headD default)) with hcs
  rw [bucketChanges_eq] at hchg_lt ⊢
  set bs := cs ++ [buf.next_ann_index] with hbs
  have hslen : sorted.length = buf.next_ann_index := by
    rw [hsorted, sortAnns_length, List.length_take]
    omega
  have hbs_len : bs.length = cs.length + 1 := by
    rw [hbs, List.length_append, List.length_singleton]
  have hbs_sorted : List.Pairwise (· < ·) bs := by
    have := changeBounds_sorted buf.ranges.length sorted
      (bucketOf buf.ranges.length (sorted.headD default))
    rw [hslen] at this
    exact this
  have hbget : ∀ k, k ≤ cs.length → lbuf.ranges[k]? = some (bs.getD k 0) := by
    intro k hk
    rw [hranges k (by rw [bucketChanges_eq]; exact hk)]
    rw [List.getD_eq_getElem bs 0 (by omega)]
    exact List.getElem?_eq_getElem (by omega)
  have hrc : ∀ k, k ≤ cs.length → lbuf.range_count k
      = some (bs.getD k 0 - (if k = 0 then 0 else bs.getD (k - 1) 0)) := by
    intro k hk
    cases k with
    | zero =>
      rw [AnnBuf.range_count, AnnBuf.range, if_pos rfl, hbget 0 (by omega)]
      simp only []
      rw [if_pos (Nat.zero_le _)]
      simp
    | succ n =>
      rw [AnnBuf.range_count, AnnBuf.range, if_neg (Nat.succ_ne_zero n)]
      rw [show n + 1 - 1 = n from rfl, hbget n (by omega), hbget (n + 1) hk]
      simp only []
      have hmle : bs.getD n 0 ≤ bs.getD (n + 1) 0 := by
        have h1 : n < bs.length := by omega
        have h2 : n + 1 < bs.length := by omega
        rw [List.getD_eq_getElem bs 0 h1, List.getD_eq_getElem bs 0 h2]
        exact Nat.le_of_lt
          (List.pairwise_iff_getElem.mp hbs_sorted n (n + 1) h1 h2 (by omega))
      rw [if_pos hmle]
      simp
  constructor
  · intro k hk
    exact ⟨_, hrc k hk⟩
  · have hsum := partial_sum_tele (fun k => (lbuf.range_count k).getD 0) bs hbs_sorted
      (by
        intro k hk
        show (lbuf.range_count k).getD 0 = _
        rw [hrc k (by omega)]
        rfl)
      cs.length (by omega)
    rw [hsum]
    rw [List.getD_eq_getElem bs 0 (by omega)]
    exact List.getElem_concat_length cs _ _ rfl _

/-- Claim C5 counterexample: the concrete scenario of the spec (CAPACITY 8,
BUCKET_COUNT 4, hash prefixes 40, 17, 33, 8, all selected, then lock). The lock
records boundaries [1, 3, 4] leaving ranges = [1, 3, 4, 0]; bucket index 3 lies in
[0, BUCKET_COUNT) yet range_count 3 computes 0 - 4, an underflowing usize subtraction
(a panic, modelled none), so range_count is not well defined for every bucket index
below BUCKET_COUNT and the counts cannot sum to the filled length over all of them. -/
theorem claim_C5_cex :
    ((((AnnBuf.new 8 4 0).push_anns [[1], [2], [3], [4]] [0, 1, 2, 3]
        [40, 17, 33, 8]).bind (fun x => x.2.1.lock)).bind
      (fun lb => lb.range_count 3)) = none ∧
    ((((AnnBuf.new 8 4 0).push_anns [[1], [2], [3], [4]] [0, 1, 2, 3]
        [40, 17, 33, 8]).bind (fun x => x.2.1.lock)).map
      (fun lb => lb.ranges)) = some [1, 3, 4, 0] := by
  exact ⟨by decide, by decide⟩

/-- Claim C1: for every sequence of valid push_anns calls on a fresh buffer whose total
selected count is at most CAPACITY, the buffer accepts every entry (each call returns
its full selection length), and after lock, read_ready_anns fills its destination with
exactly the multiset of pushed hash prefixes, ordered non-decreasing by hash_pfx. -/
theorem claim_C1 (SZ R base : Nat) (cs : List PushCall) (buf1 lbuf : AnnBuf)
    (ns : List Nat) (ws : List DbWrite) (out out' : List AnnData)
    (hval : ∀ c ∈ cs, ValidCall c)
    (htot : totalSelected cs ≤ SZ)
    (hpush : pushSeq (AnnBuf.new SZ R base) cs = some (buf1, ns, ws))
    (hlock : buf1.lock = some lbuf)
    (_hout : totalSelected cs ≤ out.length)
    (hread : lbuf.read_ready_anns out = some out') :
    ns = cs.map (fun c => c.indexes.length) ∧
    ((out'.take (totalSelected cs)).map AnnData.hash_pfx).Perm (callsPfxs cs) ∧
    List.Sorted (· ≤ ·) ((out'.take (totalSelected cs)).map AnnData.hash_pfx) := by
  have hnew_len : (AnnBuf.new SZ R base).ann_data.length = SZ := by
    rw [AnnBuf.new]
    simp
  have hnew0 : (AnnBuf.new SZ R base).next_ann_index = 0 := rfl
  obtain ⟨buf1', ws', hseq, hl1, hb1, hr1, hlen1, hnext1, hmap1⟩ :=
    pushSeq_ok cs (AnnBuf.new SZ R base) rfl hval (by rw [hnew_len, hnew0]; omega)
  rw [hseq] at hpush
  simp only [Option.some.injEq, Prod.mk.injEq] at hpush
  obtain ⟨hb1eq, hnseq, hwseq⟩ := hpush
  subst hb1eq
  have hnext : buf1'.next_ann_index = totalSelected cs := by
    rw [hnext1, hnew0]
    omega
  have hlen : buf1'.ann_data.length = SZ := by rw [hlen1, hnew_len]
  have hmap : (buf1'.ann_data.take buf1'.next_ann_index).map AnnData.hash_pfx
      = callsPfxs cs := by
    rw [hmap1]
    have he : ((AnnBuf.new SZ R base).ann_data.take
        (AnnBuf.new SZ R base).next_ann_index).map AnnData.hash_pfx = [] := by
      rfl
    rw [he]
    rfl
  obtain ⟨hlk, hlnext, hlbase, hldata, hldlen, hltake, hlrlen, hlchg, hlranges⟩ :=
    lock_structure buf1' lbuf hlock
  rw [AnnBuf.read_ready_anns] at hread
  rw [if_neg (by rw [hlk]; exact not_not_intro rfl)] at hread
  simp only [] at hread
  split at hread
  · next hcond =>
    have hout' : out' = lbuf.ann_data.take lbuf.next_ann_index ++
        out.drop lbuf.next_ann_index := (Option.some.inj hread).symm
    have htlen : (lbuf.ann_data.take lbuf.next_ann_index).length = totalSelected cs := by
      rw [List.length_take, hlnext, hnext]
      have hlsz : lbuf.ann_data.length = SZ := by rw [hldlen, hlen]
      omega
    have htake_out' : out'.take (totalSelected cs)
        = lbuf.ann_data.take lbuf.next_ann_index := by
      rw [hout']
      exact List.take_left' htlen
    have hsorted_eq : lbuf.ann_data.take lbuf.next_ann_index
        = sortAnns (buf1'.ann_data.take buf1'.next_ann_index) := by
      rw [hlnext, hltake]
    refine ⟨hnseq.symm, ?_, ?_⟩
    · rw [htake_out', hsorted_eq, ← hmap]
      exact (sortAnns_perm (buf1'.ann_data.take buf1'.next_ann_index)).map AnnData.hash_pfx
    · rw [htake_out', hsorted_eq]
      exact List.pairwise_map.mpr
        (sortAnns_sorted_pfx (buf1'.ann_data.take buf1'.next_ann_index))
  · exact absurd hread (by simp)

theorem claim_C1_witness :
    ([1] : List Nat) = [1] ∧ List.Perm [3] [3] ∧
    List.Sorted (· ≤ ·) ([3] : List Nat) :=
  claim_C1 2 2 0 [⟨[[5]], [0], [3]⟩]
    { base_offset := 0, next_ann_index := 1,
      ann_data := [⟨3, 0⟩, ⟨0, 0⟩], ranges := [0, 0], locked := false }
    { base_offset := 0, next_ann_index := 1,
      ann_data := [⟨3, 0⟩, ⟨0, 0⟩], ranges := [1, 0], locked := true }
    [1] [⟨0, [5], 3⟩] [⟨0, 0⟩] [⟨3, 0⟩]
    (by decide) (by decide) (by decide) (by decide) (by decide) (by decide)

theorem claim_C5_witness :
    ((∀ k, k ≤ 2 →
      ∃ c, AnnBuf.range_count
        { base_offset := 0, next_ann_index := 4,
          ann_data := [⟨8, 3⟩, ⟨17, 1⟩, ⟨33, 2⟩, ⟨40, 0⟩,
            ⟨0, 0⟩, ⟨0, 0⟩, ⟨0, 0⟩, ⟨0, 0⟩],
          ranges := [1, 3, 4, 0], locked := true } k = some c) ∧
    ((List.range 3).map
      (fun k => (AnnBuf.range_count
        { base_offset := 0, next_ann_index := 4,
          ann_data := [⟨8, 3⟩, ⟨17, 1⟩, ⟨33, 2⟩, ⟨40, 0⟩,
            ⟨0, 0⟩, ⟨0, 0⟩, ⟨0, 0⟩, ⟨0, 0⟩],
          ranges := [1, 3, 4, 0], locked := true } k).getD 0)).sum = 4) :=
  claim_C5
    { base_offset := 0, next_ann_index := 4,
      ann_data := [⟨40, 0⟩, ⟨17, 1⟩, ⟨33, 2⟩, ⟨8, 3⟩,
        ⟨0, 0⟩, ⟨0, 0⟩, ⟨0, 0⟩, ⟨0, 0⟩],
      ranges := [0, 0, 0, 0], locked := false }
    { base_offset := 0, next_ann_index := 4,
      ann_data := [⟨8, 3⟩, ⟨17, 1⟩, ⟨33, 2⟩, ⟨40, 0⟩,
        ⟨0, 0⟩, ⟨0, 0⟩, ⟨0, 0⟩, ⟨0, 0⟩],
      ranges := [1, 3, 4, 0], locked := true }
    (by decide)

theorem claim_C4_witness :
    ∃ recs,
      AnnBuf.iter
        { base_offset := 0, next_ann_index := 4,
          ann_data := [⟨8, 3⟩, ⟨17, 1⟩, ⟨33, 2⟩, ⟨40, 0⟩,
            ⟨0, 0⟩, ⟨0, 0⟩, ⟨0, 0⟩, ⟨0, 0⟩],
          ranges := [1, 3, 4, 0], locked := true } 1 = some recs ∧
      (∀ x ∈ recs, ∀ y ∈ recs, x.hash_pfx % 4 = y.hash_pfx % 4) ∧
      List.Sorted (· ≤ ·) (recs.map AnnData.hash_pfx) :=
  claim_C4
    { base_offset := 0, next_ann_index := 4,
      ann_data := [⟨40, 0⟩, ⟨17, 1⟩, ⟨33, 2⟩, ⟨8, 3⟩,
        ⟨0, 0⟩, ⟨0, 0⟩, ⟨0, 0⟩, ⟨0, 0⟩],
      ranges := [0, 0, 0, 0], locked := false }
    { base_offset := 0, next_ann_index := 4,
      ann_data := [⟨8, 3⟩, ⟨17, 1⟩, ⟨33, 2⟩, ⟨40, 0⟩,
        ⟨0, 0⟩, ⟨0, 0⟩, ⟨0, 0⟩, ⟨0, 0⟩],
      ranges := [1, 3, 4, 0], locked := true }
    1 (by decide) (by decide)

theorem bool_eq_of_iff {a b : Bool} (h : (a = true) ↔ (b = true)) : a = b := by
  cases a <;> cases b <;> simp_all

theorem push_rel (s1 s2 : AnnBuf) (anns : List (List Nat)) (indexes hashes : List Nat)
    (hrel : Rel s1 s2) :
    ((s1.push_anns anns indexes hashes).isSome
      = (s2.push_anns anns indexes hashes).isSome) ∧
    (∀ r1 b1 w1 r2 b2 w2,
      s1.push_anns anns indexes hashes = some (r1, b1, w1) →
      s2.push_anns anns indexes hashes = some (r2, b2, w2) →
      r1 = r2 ∧ w1 = w2 ∧ Rel b1 b2) := by
  obtain ⟨hbase, hnext, hlen, htake, hrlen, hlk⟩ := hrel
  constructor
  · apply bool_eq_of_iff
    rw [push_isSome_iff, push_isSome_iff, hlk, hlen, hnext]
  · intro r1 b1 w1 r2 b2 w2 h1 h2
    obtain ⟨hnl1, hc1⟩ := push_inv s1 anns indexes hashes r1 b1 w1 h1
    obtain ⟨hnl2, hc2⟩ := push_inv s2 anns indexes hashes r2 b2 w2 h2
    rcases hc1 with ⟨hge1, hr1, hw1, hb1⟩ | ⟨hlt1, hfit1, hr1, hv1, hw1, hb1⟩ <;>
      rcases hc2 with ⟨hge2, hr2, hw2, hb2⟩ | ⟨hlt2, hfit2, hr2, hv2, hw2, hb2⟩
    · refine ⟨by rw [hr1, hr2], by rw [hw1, hw2], ?_⟩
      have hdata_eq : s1.ann_data = s2.ann_data := by
        have t1 : s1.ann_data.take s1.next_ann_index = s1.ann_data :=
          List.take_of_length_le (by omega)
        have t2 : s2.ann_data.take s2.next_ann_index = s2.ann_data :=
          List.take_of_length_le (by omega)
        rw [← t1, ← t2, htake]
      rw [hb1, hb2]
      refine ⟨hbase, hlen, hlen, ?_, hrlen, hlk⟩
      show List.take s1.ann_data.length s1.ann_data
        = List.take s2.ann_data.length s2.ann_data
      rw [hdata_eq]
    · exfalso
      omega
    · exfalso
      omega
    · have hidxs_eq : (if s1.ann_data.length < s1.next_ann_index + indexes.length
          then indexes.take (s1.ann_data.length - s1.next_ann_index) else indexes)
          = (if s2.ann_data.length < s2.next_ann_index + indexes.length
          then indexes.take (s2.ann_data.length - s2.next_ann_index) else indexes) := by
        rw [hlen, hnext]
      refine ⟨by rw [hr1, hr2, hidxs_eq],
        by rw [hw1, hw2, hidxs_eq, hbase, hnext], ?_⟩
      have hN1eq : (if s1.ann_data.length < s1.next_ann_index + indexes.length
          then s1.ann_data.length else s1.next_ann_index + indexes.length)
          = s1.next_ann_index
            + (if s1.ann_data.length < s1.next_ann_index + indexes.length
              then indexes.take (s1.ann_data.length - s1.next_ann_index)
              else indexes).length := by
        by_cases hc : s1.ann_data.length < s1.next_ann_index + indexes.length
        · rw [if_pos hc, if_pos hc, List.length_take]
          omega
        · rw [if_neg hc, if_neg hc]
      have hN2eq : (if s2.ann_data.length < s2.next_ann_index + indexes.length
          then s2.ann_data.length else s2.next_ann_index + indexes.length)
          = s2.next_ann_index
            + (if s2.ann_data.length < s2.next_ann_index + indexes.length
              then indexes.take (s2.ann_data.length - s2.next_ann_index)
              else indexes).length := by
        by_cases hc : s2.ann_data.length < s2.next_ann_index + indexes.length
        · rw [if_pos hc, if_pos hc, List.length_take]
          omega
        · rw [if_neg hc, if_neg hc]
      have htakeD1 : (s1.ann_data.take s1.next_ann_index
            ++ recsOf s1.base_offset hashes s1.next_ann_index
              (if s1.ann_data.length < s1.next_ann_index + indexes.length
                then indexes.take (s1.ann_data.length - s1.next_ann_index)
                else indexes)
            ++ s1.ann_data.drop (s1.next_ann_index
              + (if s1.ann_data.length < s1.next_ann_index + indexes.length
                then indexes.take (s1.ann_data.length - s1.next_ann_index)
                else indexes).length)).take
            (s1.next_ann_index
              + (if s1.ann_data.length < s1.next_ann_index + indexes.length
                then indexes.take (s1.ann_data.length - s1.next_ann_index)
                else indexes).length)
          = s1.ann_data.take s1.next_ann_index
            ++ recsOf s1.base_offset hashes s1.next_ann_index
              (if s1.ann_data.length < s1.next_ann_index + indexes.length
                then indexes.take (s1.ann_data.length - s1.next_ann_index)
                else indexes) := by
        apply List.take_left'
        rw [List.length_append, List.length_take, recsOf_length]
        omega
      have htakeD2 : (s2.ann_data.take s2.next_ann_index
            ++ recsOf s2.base_offset hashes s2.next_ann_index
              (if s2.ann_data.length < s2.next_ann_index + indexes.length
                then indexes.take (s2.ann_data.length - s2.next_ann_index)
                else indexes)
            ++ s2.ann_data.drop (s2.next_ann_index
              + (if s2.ann_data.length < s2.next_ann_index + indexes.length
                then indexes.take (s2.ann_data.length - s2.next_ann_index)
                else indexes).length)).take
            (s2.next_ann_index
              + (if s2.ann_data.length < s2.next_ann_index + indexes.length
                then indexes.take (s2.ann_data.length - s2.next_ann_index)
                else indexes).length)
          = s2.ann_data.take s2.next_ann_index
            ++ recsOf s2.base_offset hashes s2.next_ann_index
              (if s2.ann_data.length < s2.next_ann_index + indexes.length
                then indexes.take (s2.ann_data.length - s2.next_ann_index)
                else indexes) := by
        apply List.take_left'
        rw [List.length_append, List.length_take, recsOf_length]
        omega
      rw [hb1, hb2]
      refine ⟨hbase, ?_, ?_, ?_, hrlen, hlk⟩
      · show (if s1.ann_data.length < s1.next_ann_index + indexes.length
            then s1.ann_data.length else s1.next_ann_index + indexes.length)
          = (if s2.ann_data.length < s2.next_ann_index + indexes.length
            then s2.ann_data.length else s2.next_ann_index + indexes.length)
        rw [hlen, hnext]
      · show (s1.ann_data.take s1.next_ann_index ++ _ ++ _).length
          = (s2.ann_data.take s2.next_ann_index ++ _ ++ _).length
        simp only [List.length_append, List.length_take, List.length_drop,
          recsOf_length, hidxs_eq]
        omega
      · show (s1.ann_data.take s1.next_ann_index ++ _ ++ _).take
            (if s1.ann_data.length < s1.next_ann_index + indexes.length
              then s1.ann_data.length else s1.next_ann_index + indexes.length)
          = (s2.ann_data.take s2.next_ann_index ++ _ ++ _).take
            (if s2.ann_data.length < s2.next_ann_index + indexes.length
              then s2.ann_data.length else s2.next_ann_index + indexes.length)
        rw [hN1eq, hN2eq, htakeD1, htakeD2, htake, hidxs_eq, hbase, hnext]

theorem pushSeq_rel : ∀ (cs : List PushCall) (s1 s2 : AnnBuf), Rel s1 s2 →
    ((pushSeq s1 cs).isSome = (pushSeq s2 cs).isSome) ∧
    (∀ b1 n1 w1 b2 n2 w2, pushSeq s1 cs = some (b1, n1, w1) →
      pushSeq s2 cs = some (b2, n2, w2) → n1 = n2 ∧ w1 = w2 ∧ Rel b1 b2)
  | [], s1, s2, hrel => by
    refine ⟨rfl, ?_⟩
    intro b1 n1 w1 b2 n2 w2 h1 h2
    rw [pushSeq] at h1 h2
    simp only [Option.some.injEq, Prod.mk.injEq] at h1 h2
    obtain ⟨e1, e2, e3⟩ := h1
    obtain ⟨f1, f2, f3⟩ := h2
    rw [← e2, ← f2, ← e3, ← f3]
    exact ⟨rfl, rfl, by rw [← e1, ← f1]; exact hrel⟩
  | c :: cs, s1, s2, hrel => by
    have hp := push_rel s1 s2 c.anns c.indexes c.hashes hrel
    constructor
    · rw [pushSeq, pushSeq]
      cases h1 : s1.push_anns c.anns c.indexes c.hashes with
      | none =>
        cases h2 : s2.push_anns c.anns c.indexes c.hashes with
        | none => rfl
        | some y =>
          exfalso
          have hs := hp.1
          rw [h1, h2] at hs
          simp at hs
      | some x =>
        cases h2 : s2.push_anns c.anns c.indexes c.hashes with
        | none =>
          exfalso
          have hs := hp.1
          rw [h1, h2] at hs
          simp at hs
        | some y =>
          obtain ⟨r1, b1, w1⟩ := x
          obtain ⟨r2, b2, w2⟩ := y
          obtain ⟨-, -, hrel'⟩ := hp.2 r1 b1 w1 r2 b2 w2 h1 h2
          have ih := pushSeq_rel cs b1 b2 hrel'
          simp only []
          cases hs1 : pushSeq b1 cs with
          | none =>
            cases hs2 : pushSeq b2 cs with
            | none => rfl
            | some z =>
              exfalso
              have hs := ih.1
              rw [hs1, hs2] at hs
              simp at hs
          | some z =>
            cases hs2 : pushSeq b2 cs with
            | none =>
              exfalso
              have hs := ih.1
              rw [hs1, hs2] at hs
              simp at hs
            | some zz =>
              obtain ⟨zb, zn, zw⟩ := z
              obtain ⟨zb2, zn2, zw2⟩ := zz
              rfl
    · intro e1 n1 v1 e2 n2 v2 h1 h2
      rw [pushSeq] at h1 h2
      cases hp1 : s1.push_anns c.anns c.indexes c.hashes with
      | none => rw [hp1] at h1; simp at h1
      | some x =>
        cases hp2 : s2.push_anns c.anns c.indexes c.hashes with
        | none => rw [hp2] at h2; simp at h2
        | some y =>
          obtain ⟨r1, b1, w1⟩ := x
          obtain ⟨r2, b2, w2⟩ := y
          rw [hp1] at h1
          rw [hp2] at h2
          simp only [] at h1 h2
          obtain ⟨-, -, hrel'⟩ := hp.2 r1 b1 w1 r2 b2 w2 hp1 hp2
          have ih := pushSeq_rel cs b1 b2 hrel'
          cases hs1 : pushSeq b1 cs with
          | none => rw [hs1] at h1; simp at h1
          | some z =>
            cases hs2 : pushSeq b2 cs with
            | none => rw [hs2] at h2; simp at h2
            | some zz =>
              obtain ⟨zb, zn, zw⟩ := z
              obtain ⟨zb2, zn2, zw2⟩ := zz
              rw [hs1] at h1
              rw [hs2] at h2
              simp only [Option.some.injEq, Prod.mk.injEq] at h1 h2
              obtain ⟨g1, g2, g3⟩ := h1
              obtain ⟨k1, k2, k3⟩ := h2
              obtain ⟨hr12, hw12, hrelz⟩ := ih.2 zb zn zw zb2 zn2 zw2 hs1 hs2
              obtain ⟨hpr, hpw, -⟩ := hp.2 r1 b1 w1 r2 b2 w2 hp1 hp2
              refine ⟨?_, ?_, ?_⟩
              · rw [← g2, ← k2, hpr, hr12]
              · rw [← g3, ← k3, hpw, hw12]
              · rw [← g1, ← k1]
                exact hrelz

theorem lock_rel (s1 s2 : AnnBuf) (hrel : Rel s1 s2) :
    ((s1.lock).isSome = (s2.lock).isSome) ∧
    (∀ l1 l2, s1.lock = some l1 → s2.lock = some l2 →
      l1.next_ann_index = l2.next_ann_index ∧
      l1.ann_data.take l1.next_ann_index = l2.ann_data.take l2.next_ann_index ∧
      l1.ann_data.length = l2.ann_data.length ∧
      l1.ranges.length = l2.ranges.length ∧
      (∀ m, m ≤ bucketChanges l1.ranges.length
          (l1.ann_data.take l1.next_ann_index) →
        l1.ranges[m]? = l2.ranges[m]?)) := by
  obtain ⟨hbase, hnext, hlen, htake, hrlen, hlk⟩ := hrel
  have hsorted_eq : sortAnns (s1.ann_data.take s1.next_ann_index)
      = sortAnns (s2.ann_data.take s2.next_ann_index) := by
    rw [htake]
  constructor
  · apply bool_eq_of_iff
    rw [lock_isSome_iff, lock_isSome_iff, hsorted_eq, hlk, hlen, hnext, hrlen]
  · intro l1 l2 h1 h2
    obtain ⟨hlk1, hnext1, hbase1, hdata1, hdlen1, htake1, hrlen1, hchg1, hranges1⟩ :=
      lock_structure s1 l1 h1
    obtain ⟨hlk2, hnext2, hbase2, hdata2, hdlen2, htake2, hrlen2, hchg2, hranges2⟩ :=
      lock_structure s2 l2 h2
    have hn : l1.next_ann_index = l2.next_ann_index := by
      rw [hnext1, hnext2, hnext]
    have ht : l1.ann_data.take l1.next_ann_index
        = l2.ann_data.take l2.next_ann_index := by
      rw [hnext1, hnext2, htake1, htake2, hsorted_eq]
    refine ⟨hn, ht, by rw [hdlen1, hdlen2, hlen], by rw [hrlen1, hrlen2, hrlen], ?_⟩
    intro m hm
    have hm1 : m ≤ bucketChanges s1.ranges.length
        (sortAnns (s1.ann_data.take s1.next_ann_index)) := by
      rw [hrlen1, hnext1, htake1] at hm
      exact hm
    have hm2 : m ≤ bucketChanges s2.ranges.length
        (sortAnns (s2.ann_data.take s2.next_ann_index)) := by
      rw [hsorted_eq, hrlen] at hm1
      exact hm1
    rw [hranges1 m hm1, hranges2 m hm2, hsorted_eq, hrlen, hnext]

/-- Claim C6 (amended): reset zeroes the cursor and clears the locked flag but leaves
the record array and the boundary array in place. A reset buffer therefore behaves
like a freshly constructed one only on the state the next round overwrites: any push
sequence succeeds on one exactly when it succeeds on the other, with identical
returned counts and byte-store writes, identical cursor and identical filled prefix;
a following lock succeeds on one exactly when on the other, after which the cursor,
the sorted filled prefix, read_ready_anns into an exactly-sized destination, and
range_count for every bucket up to the observed change count agree. Records and
boundary values from before the reset remain in the arrays and are visible through
iter and range_count at bucket indexes beyond the new change count (see the
counterexample). -/
theorem claim_C6 (buf0 : AnnBuf) (cs : List PushCall) :
    (buf0.reset).next_ann_index = 0 ∧ (buf0.reset).locked = false ∧
    (buf0.reset).ann_data = buf0.ann_data ∧ (buf0.reset).ranges = buf0.ranges ∧
    ((pushSeq (buf0.reset) cs).isSome = (pushSeq
      (AnnBuf.new buf0.ann_data.length buf0.ranges.length buf0.base_offset)
      cs).isSome) ∧
    (∀ b1 n1 w1 b2 n2 w2,
      pushSeq (buf0.reset) cs = some (b1, n1, w1) →
      pushSeq (AnnBuf.new buf0.ann_data.length buf0.ranges.length buf0.base_offset) cs
        = some (b2, n2, w2) →
      n1 = n2 ∧ w1 = w2 ∧
      b1.next_ann_index = b2.next_ann_index ∧
      b1.ann_data.take b1.next_ann_index = b2.ann_data.take b2.next_ann_index ∧
      ((b1.lock).isSome = (b2.lock).isSome) ∧
      (∀ l1 l2, b1.lock = some l1 → b2.lock = some l2 →
        l1.next_ann_index = l2.next_ann_index ∧
        l1.ann_data.take l1.next_ann_index = l2.ann_data.take l2.next_ann_index ∧
        (∀ out, out.length = l1.next_ann_index →
          l1.read_ready_anns out = l2.read_ready_anns out) ∧
        (∀ k, k ≤ bucketChanges l1.ranges.length
            (l1.ann_data.take l1.next_ann_index) →
          l1.range_count k = l2.range_count k))) := by
  have hrel0 : Rel (buf0.reset)
      (AnnBuf.new buf0.ann_data.length buf0.ranges.length buf0.base_offset) := by
    refine ⟨rfl, rfl, ?_, rfl, ?_, rfl⟩
    · show buf0.ann_data.length
        = (List.replicate buf0.ann_data.length default).length
      rw [List.length_replicate]
    · show buf0.ranges.length = (List.replicate buf0.ranges.length 0).length
      rw [List.length_replicate]
  obtain ⟨hseq_some, hseq_rel⟩ := pushSeq_rel cs (buf0.reset)
    (AnnBuf.new buf0.ann_data.length buf0.ranges.length buf0.base_offset) hrel0
  refine ⟨rfl, rfl, rfl, rfl, hseq_some, ?_⟩
  intro b1 n1 w1 b2 n2 w2 h1 h2
  obtain ⟨hn, hw, hrelb⟩ := hseq_rel b1 n1 w1 b2 n2 w2 h1 h2
  obtain ⟨hlock_some, hlock_rel⟩ := lock_rel b1 b2 hrelb
  refine ⟨hn, hw, hrelb.2.1, hrelb.2.2.2.1, hlock_some, ?_⟩
  intro l1 l2 hl1 hl2
  obtain ⟨hln, hltake, hldlen, hlrlen, hlranges⟩ := hlock_rel l1 l2 hl1 hl2
  have hlk1 := (lock_structure b1 l1 hl1).1
  have hlk2 := (lock_structure b2 l2 hl2).1
  refine ⟨hln, hltake, ?_, ?_⟩
  · intro out hout
    rw [AnnBuf.read_ready_anns, AnnBuf.read_ready_anns,
      if_neg (show ¬¬(l1.locked = true) from by rw [hlk1]; exact not_not_intro rfl),
      if_neg (show ¬¬(l2.locked = true) from by rw [hlk2]; exact not_not_intro rfl)]
    simp only []
    by_cases hcond : l1.next_ann_index ≤ l1.ann_data.length
        ∧ l1.next_ann_index ≤ out.length
    · rw [if_pos hcond, if_pos (by rw [← hln, ← hldlen]; exact hcond)]
      rw [hltake, hln]
    · rw [if_neg hcond, if_neg (by rw [← hln, ← hldlen]; exact hcond)]
  · intro k hk
    rw [AnnBuf.range_count, AnnBuf.range_count, AnnBuf.range, AnnBuf.range]
    cases k with
    | zero =>
      rw [if_pos rfl, if_pos rfl, hlranges 0 (by omega)]
    | succ n =>
      rw [if_neg (Nat.succ_ne_zero n), if_neg (Nat.succ_ne_zero n),
        show n + 1 - 1 = n from rfl, hlranges n (by omega), hlranges (n + 1) hk]

/-- Claim C6 counterexample: run the spec scenario (prefixes 40, 17, 33, 8; lock),
reset, then push prefixes 0 and 4 and lock again, versus the same second round on a
freshly constructed buffer. On the reset buffer the stale record (33, mloc 2) and the
stale boundary entries 3, 4 are still visible: iter 1 yields the stale record and
range_count 1 returns 1, while on the fresh buffer iter 1 is empty and range_count 1
underflows — so the reset buffer is not observationally equivalent to a fresh one. -/
theorem claim_C6_cex :
    (((((AnnBuf.new 8 4 0).push_anns [[1], [2], [3], [4]] [0, 1, 2, 3]
          [40, 17, 33, 8]).bind (fun x => x.2.1.lock)).map AnnBuf.reset).bind
        (fun b => (b.push_anns [[0], [0]] [0, 1] [0, 4]).bind
          (fun x => x.2.1.lock))).bind (fun b => b.iter 1)
      ≠ (((AnnBuf.new 8 4 0).push_anns [[0], [0]] [0, 1] [0, 4]).bind
        (fun x => x.2.1.lock)).bind (fun b => b.iter 1) ∧
    (((((AnnBuf.new 8 4 0).push_anns [[1], [2], [3], [4]] [0, 1, 2, 3]
          [40, 17, 33, 8]).bind (fun x => x.2.1.lock)).map AnnBuf.reset).bind
        (fun b => (b.push_anns [[0], [0]] [0, 1] [0, 4]).bind
          (fun x => x.2.1.lock))).bind (fun b => b.range_count 1)
      ≠ (((AnnBuf.new 8 4 0).push_anns [[0], [0]] [0, 1] [0, 4]).bind
        (fun x => x.2.1.lock)).bind (fun b => b.range_count 1) := by
  exact ⟨by decide, by decide⟩

/-- Witness for C6 at the spec's concrete scenario: starting from the locked
scenario buffer (cursor 4, records for prefixes 40, 17, 33, 8, boundaries
[1, 3, 4, 0]), resetting and pushing two fresh records with prefixes 0 and 4
gives, after lock, the same range_count at bucket 0 as the same push sequence
on a freshly constructed buffer — all hypotheses of the equivalence theorem are
discharged at these concrete states. -/
theorem claim_C6_witness :
    AnnBuf.range_count
        ⟨0, 2, [⟨0, 0⟩, ⟨4, 1⟩, ⟨33, 2⟩, ⟨40, 0⟩, ⟨0, 0⟩, ⟨0, 0⟩, ⟨0, 0⟩, ⟨0, 0⟩],
          [2, 3, 4, 0], true⟩ 0
      = AnnBuf.range_count
        ⟨0, 2, [⟨0, 0⟩, ⟨4, 1⟩, ⟨0, 0⟩, ⟨0, 0⟩, ⟨0, 0⟩, ⟨0, 0⟩, ⟨0, 0⟩, ⟨0, 0⟩],
          [2, 0, 0, 0], true⟩ 0 := by
  have h := claim_C6
    ⟨0, 4, [⟨8, 3⟩, ⟨17, 1⟩, ⟨33, 2⟩, ⟨40, 0⟩, ⟨0, 0⟩, ⟨0, 0⟩, ⟨0, 0⟩, ⟨0, 0⟩],
      [1, 3, 4, 0], true⟩
    [⟨[[0], [0]], [0, 1], [0, 4]⟩]
  have h6 := h.2.2.2.2.2
    ⟨0, 2, [⟨0, 0⟩, ⟨4, 1⟩, ⟨33, 2⟩, ⟨40, 0⟩, ⟨0, 0⟩, ⟨0, 0⟩, ⟨0, 0⟩, ⟨0, 0⟩],
      [1, 3, 4, 0], false⟩
    [2] [⟨0, [0], 0⟩, ⟨1, [0], 4⟩]
    ⟨0, 2, [⟨0, 0⟩, ⟨4, 1⟩, ⟨0, 0⟩, ⟨0, 0⟩, ⟨0, 0⟩, ⟨0, 0⟩, ⟨0, 0⟩, ⟨0, 0⟩],
      [0, 0, 0, 0], false⟩
    [2] [⟨0, [0], 0⟩, ⟨1, [0], 4⟩]
    (by decide) (by decide)
  have hin := h6.2.2.2.2.2
    ⟨0, 2, [⟨0, 0⟩, ⟨4, 1⟩, ⟨33, 2⟩, ⟨40, 0⟩, ⟨0, 0⟩, ⟨0, 0⟩, ⟨0, 0⟩, ⟨0, 0⟩],
      [2, 3, 4, 0], true⟩
    ⟨0, 2, [⟨0, 0⟩, ⟨4, 1⟩, ⟨0, 0⟩, ⟨0, 0⟩, ⟨0, 0⟩, ⟨0, 0⟩, ⟨0, 0⟩, ⟨0, 0⟩],
      [2, 0, 0, 0], true⟩
    (by decide) (by decide)
  exact hin.2.2.2 0 (by decide)

end AnnBufModel
